import Mathlib

/-!
Verification of the chunked parallel transfer engine of the `s3-client`
repository against its natural-language specification.

The Go source is shallowly embedded:
* the chunk planner loop of `internal/cmd/download/run.go` (`download`,
  lines 298-307) becomes `planChunks`;
* the download worker pool (same file, lines 338-377) becomes a small-step
  state machine `step`/`runSched` over `DLState`, where the nondeterministic
  goroutine interleaving is a `schedule : List Nat` of worker indices;
* the sequential multipart upload loop of `internal/cmd/upload/run.go`
  (`uploadMultipart`, lines 177-270) becomes `uploadMultipart`, recording the
  storage calls it makes as a trace of `UEvent`s;
* the progress percent computation of `render` (download/run.go, lines
  105-110) becomes `renderPct`, with the float corner cases (0/0 = NaN,
  x/0 = +Inf for x > 0) made explicit in an inductive result type;
* `ObjectExists`/`BucketExists` and the client factory cache
  (`internal/shared/s3client/client.go`) become small pure functions over
  oracle responses.

Machine integers: the Go code uses `int64` sizes and offsets that are always
non-negative and far from overflow in every reachable configuration, so sizes
and offsets are embedded as `Nat`.
-/

namespace S3C

/-- A piece of the download plan: `chunk{index, start, end}` from
`internal/cmd/download/run.go`.  The Go field `end` is called `endIdx` here
because `end` is a Lean keyword.  Byte range is inclusive: `[start, endIdx]`. -/
structure Chunk where
  index : Nat
  start : Nat
  endIdx : Nat
deriving DecidableEq, Repr

/-- Length in bytes of a chunk's inclusive range. -/
def clen (c : Chunk) : Nat := c.endIdx + 1 - c.start

/-- The planning loop body of `download` (run.go lines 298-305):

```
for i := int64(0); i < totalSize; i += d.chunkSize {
    end := i + d.chunkSize - 1
    if end >= totalSize { end = totalSize - 1 }
    chunks = append(chunks, chunk{index: len(chunks), start: i, end: end})
}
```

`fuel` is only termination bookkeeping: for `chunkSize > 0` the loop runs
`ceil(totalSize/chunkSize) ≤ totalSize` times, so `fuel = totalSize` at the
top-level call never runs out (for `chunkSize = 0` the Go loop diverges; the
claims below only concern `chunkSize > 0`). -/
def planGo (totalSize chunkSize : Nat) : Nat → Nat → Nat → List Chunk
  | 0, _, _ => []
  | fuel + 1, i, idx =>
    if i < totalSize then
      Chunk.mk idx i (if totalSize ≤ i + chunkSize - 1 then totalSize - 1 else i + chunkSize - 1)
        :: planGo totalSize chunkSize fuel (i + chunkSize) (idx + 1)
    else []

/-- The chunk plan of `download` for an object of `totalSize` bytes and the
configured `chunkSize`. -/
def planChunks (totalSize chunkSize : Nat) : List Chunk :=
  planGo totalSize chunkSize totalSize 0 0

/-- `ceil(t / c)` on naturals, the piece count both of the download planner and
of the multipart upload loop (`(totalSize + partSizeBytes - 1) / partSizeBytes`). -/
def chunkCount (t c : Nat) : Nat := (t + c - 1) / c

/-- Closed form for the chunk at position `k` of the plan. -/
def chunkSpec (t c k : Nat) : Chunk :=
  Chunk.mk k (k * c) (if t ≤ k * c + c - 1 then t - 1 else k * c + c - 1)

theorem chunkCount_zero (c : Nat) : chunkCount 0 c = 0 := by
  unfold chunkCount
  rcases c with _ | c
  · rfl
  · exact Nat.div_eq_of_lt (by omega)

/-- For `t ≥ 1` the ceiling count is `(t-1)/c + 1`. -/
theorem chunkCount_eq {t c : Nat} (hc : 0 < c) (ht : 0 < t) :
    chunkCount t c = (t - 1) / c + 1 := by
  unfold chunkCount
  have h1 : t + c - 1 = (t - 1) + c := by omega
  rw [h1, Nat.add_div_right _ hc]

theorem chunkCount_eq_zero_iff {t c : Nat} (hc : 0 < c) :
    chunkCount t c = 0 ↔ t = 0 := by
  constructor
  · intro h
    by_contra ht
    rw [chunkCount_eq hc (by omega)] at h
    exact Nat.succ_ne_zero _ h
  · intro h; subst h
    exact chunkCount_zero c

theorem chunkCount_succ {t c : Nat} (hc : 0 < c) (ht : 0 < t) :
    chunkCount t c = chunkCount (t - c) c + 1 := by
  rw [chunkCount_eq hc ht]
  by_cases h : t ≤ c
  · have h1 : t - c = 0 := by omega
    rw [h1, chunkCount_zero]
    have h2 : t - 1 < c := by omega
    rw [Nat.div_eq_of_lt h2]
  · rw [chunkCount_eq hc (by omega)]
    have h1 : t - 1 = (t - c - 1) + c := by omega
    rw [h1, Nat.add_div_right _ hc]

/-- The piece count never exceeds the byte count (used to justify the fuel). -/
theorem chunkCount_le_total {t c : Nat} (hc : 0 < c) : chunkCount t c ≤ t := by
  induction t using Nat.strong_induction_on with
  | _ t ih =>
    rcases Nat.eq_zero_or_pos t with ht | ht
    · subst ht; rw [chunkCount_zero]
    · rw [chunkCount_succ hc ht]
      have := ih (t - c) (by omega)
      omega

/-- `t ≤ count * c`: the plan covers at least `t` bytes. -/
theorem le_chunkCount_mul {t c : Nat} (hc : 0 < c) : t ≤ chunkCount t c * c := by
  induction t using Nat.strong_induction_on with
  | _ t ih =>
    rcases Nat.eq_zero_or_pos t with ht | ht
    · omega
    · rw [chunkCount_succ hc ht, Nat.succ_mul]
      have := ih (t - c) (by omega)
      omega

/-- `(count - 1) * c < t` for `t > 0`: all but the last piece fit strictly. -/
theorem chunkCount_pred_mul_lt {t c : Nat} (hc : 0 < c) (ht : 0 < t) :
    (chunkCount t c - 1) * c < t := by
  induction t using Nat.strong_induction_on with
  | _ t ih =>
    rw [chunkCount_succ hc ht, Nat.add_sub_cancel]
    rcases Nat.eq_zero_or_pos (t - c) with h0 | h0
    · rw [h0, chunkCount_zero]; omega
    · have h1 := ih (t - c) (by omega) h0
      have h2 : chunkCount (t - c) c = (chunkCount (t - c) c - 1) + 1 := by
        have := (@chunkCount_eq_zero_iff (t - c) c hc).not
        omega
      rw [h2, Nat.succ_mul]
      omega

/-- Every position `p < t` lies in piece `p / c` of the plan. -/
theorem div_lt_chunkCount {t c p : Nat} (hc : 0 < c) (hp : p < t) :
    p / c < chunkCount t c := by
  rw [chunkCount_eq hc (by omega)]
  have h1 : p / c ≤ (t - 1) / c := Nat.div_le_div_right (by omega)
  omega

/-- Closed form of the planning loop, by induction on the fuel. -/
theorem planGo_eq (t c : Nat) (hc : 0 < c) :
    ∀ fuel idx, chunkCount (t - idx * c) c ≤ fuel →
      planGo t c fuel (idx * c) idx =
        (List.range (chunkCount (t - idx * c) c)).map (fun j => chunkSpec t c (idx + j)) := by
  intro fuel
  induction fuel with
  | zero =>
    intro idx h
    have h0 : chunkCount (t - idx * c) c = 0 := by omega
    rw [h0]
    rfl
  | succ fuel ih =>
    intro idx h
    by_cases hlt : idx * c < t
    · have hpos : 0 < t - idx * c := by omega
      have hrw : idx * c + c = (idx + 1) * c := by ring
      have hrw2 : t - idx * c - c = t - (idx + 1) * c := by
        rw [← hrw]; omega
      have hbound : chunkCount (t - (idx + 1) * c) c ≤ fuel := by
        rw [chunkCount_succ hc hpos, hrw2] at h
        omega
      rw [chunkCount_succ hc hpos]
      rw [List.range_succ_eq_map, List.map_cons]
      simp only [planGo]
      rw [if_pos hlt]
      refine List.cons_eq_cons.mpr ⟨?_, ?_⟩
      · simp [chunkSpec]
      · rw [hrw, hrw2, ih (idx + 1) hbound, List.map_map]
        apply List.map_congr_left
        intro j _
        simp only [Function.comp_apply]
        have hj2 : idx + 1 + j = idx + (j + 1) := by omega
        simp [hj2]
    · have h0 : t - idx * c = 0 := by omega
      rw [h0, chunkCount_zero]
      simp only [planGo]
      rw [if_neg hlt]
      rfl

/-- The chunks computed by the `download` planning loop, in closed form. -/
theorem planChunks_eq {t c : Nat} (hc : 0 < c) :
    planChunks t c = (List.range (chunkCount t c)).map (chunkSpec t c) := by
  have h := planGo_eq t c hc t 0 (by simpa using chunkCount_le_total hc)
  simp only [Nat.zero_mul, Nat.sub_zero] at h
  unfold planChunks
  rw [h]
  apply List.map_congr_left
  intro j _
  simp

theorem planChunks_length {t c : Nat} (hc : 0 < c) :
    (planChunks t c).length = chunkCount t c := by
  rw [planChunks_eq hc]; simp

theorem planChunks_get {t c : Nat} (hc : 0 < c) (k : Nat)
    (hk : k < (planChunks t c).length) :
    (planChunks t c).get ⟨k, hk⟩ = chunkSpec t c k := by
  simp [planChunks_eq hc]

theorem planChunks_getElem {t c : Nat} (hc : 0 < c) (k : Nat)
    (hk : k < (planChunks t c).length) :
    (planChunks t c)[k] = chunkSpec t c k := by
  simp [planChunks_eq hc]

/-- Each chunk's endpoint is below `t`, its start is `k*c`, and it is nonempty. -/
theorem chunkSpec_bounds {t c k : Nat} (hc : 0 < c) (hk : k < chunkCount t c) :
    (chunkSpec t c k).start = k * c ∧ (chunkSpec t c k).start ≤ (chunkSpec t c k).endIdx ∧
      (chunkSpec t c k).endIdx < t := by
  have hkc : k * c < t := by
    have h1 : k ≤ chunkCount t c - 1 := by omega
    have ht : 0 < t := by
      by_contra h
      have : t = 0 := by omega
      rw [this, chunkCount_zero] at hk; omega
    have h2 := chunkCount_pred_mul_lt hc ht
    calc k * c ≤ (chunkCount t c - 1) * c := Nat.mul_le_mul_right c h1
    _ < t := h2
  refine ⟨rfl, ?_, ?_⟩ <;> simp only [chunkSpec] <;> split <;> omega

/-- C1: for every `totalSizeBytes ≥ 0` and `pieceSizeBytes > 0` the planner's
pieces are strictly ordered by index (the k-th piece has index k), pairwise
disjoint (each piece ends strictly before the next begins), their union is
exactly `[0, totalSizeBytes)`, the piece count is `ceil(total/pieceSize)`, the
last piece's length is `total - (count-1)*pieceSize`, and `total = 0` yields an
empty plan. -/
theorem c1_chunk_planner (t c : Nat) (hc : 0 < c) :
    (planChunks t c).length = chunkCount t c
    ∧ (∀ k (hk : k < (planChunks t c).length), ((planChunks t c).get ⟨k, hk⟩).index = k)
    ∧ (∀ j k (hj : j < (planChunks t c).length) (hk : k < (planChunks t c).length), j < k →
        ((planChunks t c).get ⟨j, hj⟩).endIdx < ((planChunks t c).get ⟨k, hk⟩).start)
    ∧ (∀ p, p < t ↔ ∃ k, ∃ hk : k < (planChunks t c).length,
        ((planChunks t c).get ⟨k, hk⟩).start ≤ p ∧ p ≤ ((planChunks t c).get ⟨k, hk⟩).endIdx)
    ∧ (∀ hne : planChunks t c ≠ [],
        clen ((planChunks t c).getLast hne) = t - ((planChunks t c).length - 1) * c)
    ∧ (t = 0 → planChunks t c = []) := by
  have hlen := @planChunks_length t c hc
  refine ⟨hlen, ?_, ?_, ?_, ?_, ?_⟩
  · intro k hk
    rw [planChunks_get hc k hk]
    rfl
  · intro j k hj hk hjk
    rw [planChunks_get hc j hj, planChunks_get hc k hk]
    have hmul : (j + 1) * c ≤ k * c := Nat.mul_le_mul_right c (by omega)
    have hrw : j * c + c = (j + 1) * c := by ring
    simp only [chunkSpec]
    split <;> omega
  · intro p
    constructor
    · intro hp
      have ht : 0 < t := by omega
      refine ⟨p / c, ?_, ?_⟩
      · rw [hlen]
        exact div_lt_chunkCount hc hp
      · rw [planChunks_get hc _ _]
        have h1 : p / c * c ≤ p := Nat.div_mul_le_self p c
        have h2 : c * (p / c) + p % c = p := Nat.div_add_mod p c
        have h3 : p % c < c := Nat.mod_lt p hc
        have h4 : c * (p / c) = p / c * c := by ring
        simp only [chunkSpec]
        split <;> omega
    · rintro ⟨k, hk, h1, h2⟩
      rw [planChunks_get hc k hk] at h2
      have hk2 : k < chunkCount t c := by rw [hlen] at hk; exact hk
      have := (chunkSpec_bounds hc hk2).2.2
      omega
  · intro hne
    have hlpos : 0 < (planChunks t c).length := List.length_pos.mpr hne
    rw [List.getLast_eq_getElem, planChunks_getElem hc _ _]
    rw [hlen] at hlpos ⊢
    have ht : 0 < t := by
      by_contra h
      have h0 : t = 0 := by omega
      rw [(chunkCount_eq_zero_iff hc).mpr h0] at hlpos
      omega
    have h1 := chunkCount_pred_mul_lt hc ht
    have h2 := @le_chunkCount_mul t c hc
    have h3 : chunkCount t c - 1 + 1 = chunkCount t c := by omega
    have h4 : (chunkCount t c - 1) * c + c = chunkCount t c * c := by
      calc (chunkCount t c - 1) * c + c = (chunkCount t c - 1 + 1) * c := by ring
      _ = chunkCount t c * c := by rw [h3]
    simp only [chunkSpec, clen]
    split <;> omega
  · intro h0
    subst h0
    rw [planChunks_eq hc, chunkCount_zero]
    rfl

/-- Witness for C1 at the spec's own example shape: `t = 25`, `c = 10`
(three pieces, the last of length 5). -/
theorem c1_chunk_planner_witness :
    0 < 10
    ∧ ((planChunks 25 10).length = chunkCount 25 10
    ∧ (∀ k (hk : k < (planChunks 25 10).length), ((planChunks 25 10).get ⟨k, hk⟩).index = k)
    ∧ (∀ j k (hj : j < (planChunks 25 10).length) (hk : k < (planChunks 25 10).length), j < k →
        ((planChunks 25 10).get ⟨j, hj⟩).endIdx < ((planChunks 25 10).get ⟨k, hk⟩).start)
    ∧ (∀ p, p < 25 ↔ ∃ k, ∃ hk : k < (planChunks 25 10).length,
        ((planChunks 25 10).get ⟨k, hk⟩).start ≤ p ∧ p ≤ ((planChunks 25 10).get ⟨k, hk⟩).endIdx)
    ∧ (∀ hne : planChunks 25 10 ≠ [],
        clen ((planChunks 25 10).getLast hne) = 25 - ((planChunks 25 10).length - 1) * 10)
    ∧ (25 = 0 → planChunks 25 10 = [])) :=
  ⟨by decide, c1_chunk_planner 25 10 (by decide)⟩

/-!
## Download worker pool

The worker pool of `download` (run.go lines 309-377) is embedded as a small
step machine.  Each of the `concurrency` goroutines repeatedly takes the head
of the shared chunk channel, calls `s3ops.DownloadRange` for that chunk's byte
range, writes the returned bytes at the chunk's offset and marks it done; on a
range or write failure it marks the chunk failed, sends the error on `errCh`
and returns, without signalling other workers.  A `schedule : List Nat` of
worker indices resolves the goroutine interleaving; a scheduled worker performs
its next atomic action: take-and-fetch (one network call) or positional write.
The `DownloadRange`/`WriteAt` outcome is an oracle `fetch : Chunk → Option
(List Nat)`, `none` meaning the chunk's transfer (or its local write) failed.
After `wg.Wait()` the engine drains `errCh` and returns the first recorded
error, `nil` when there is none (`resultOf`).
-/

/-- Per-chunk progress state (run.go lines 40-45). -/
inductive PState where
  | waiting
  | active
  | done
  | failed
deriving DecidableEq, Repr

/-- Status of one worker goroutine: in its loop waiting to take a chunk,
holding fetched bytes it still has to write, returned normally (channel
exhausted), or returned after recording an error. -/
inductive WStatus where
  | idle
  | busy (c : Chunk) (data : List Nat)
  | haltedOk
  | haltedFail
deriving DecidableEq, Repr

/-- Storage/filesystem oracle: the outcome of `DownloadRange` (plus the
subsequent `WriteAt`) for a chunk; `none` models a failed range GET or write. -/
structure DLEnv where
  fetch : Chunk → Option (List Nat)

/-- State of one download run: the shared chunk channel (`chunkCh`), the
worker goroutines, the destination file (pre-sized, positional writes), the
errors collected on `errCh` in send order, and the per-chunk state array. -/
structure DLState where
  queue : List Chunk
  workers : List WStatus
  file : Nat → Nat
  fileLen : Nat
  errors : List Nat
  states : List PState

/-- Positional write `f.WriteAt(data, off)`: bytes `[off, off+len)` are
replaced; `WriteAt` past the current end extends the file. -/
def writeBytes (f : Nat → Nat) (off : Nat) (data : List Nat) : Nat → Nat :=
  fun p => if off ≤ p ∧ p < off + data.length then data.getD (p - off) 0 else f p

/-- Per-chunk state lookup (`pb.chunkStates[j]`). -/
def stOf (s : DLState) (j : Nat) : PState := s.states.getD j .waiting

/-- The state before any worker runs: file created and truncated to
`totalSize` (zero filled), all chunks queued, all workers in their loops. -/
def initState (chunks : List Chunk) (n totalSize : Nat) : DLState where
  queue := chunks
  workers := List.replicate n .idle
  file := fun _ => 0
  fileLen := totalSize
  errors := []
  states := List.replicate chunks.length .waiting

/-- One scheduled action of worker `w`:
* an idle worker takes the queue head, marks it downloading and performs the
  range GET — on failure it marks the chunk failed, records the error and
  halts (run.go lines 349-353), on success it holds the bytes;
* a worker holding bytes performs the positional write and marks the chunk
  done (lines 355-362);
* an idle worker finding the closed channel empty returns normally;
* a halted worker does nothing. -/
def step (env : DLEnv) (s : DLState) (w : Nat) : DLState :=
  match s.workers.getD w .haltedOk with
  | .idle =>
    match s.queue with
    | [] => { s with workers := s.workers.set w .haltedOk }
    | c :: rest =>
      match env.fetch c with
      | none =>
        { s with queue := rest, workers := s.workers.set w .haltedFail,
                 errors := s.errors ++ [c.index], states := s.states.set c.index .failed }
      | some d =>
        { s with queue := rest, workers := s.workers.set w (.busy c d),
                 states := s.states.set c.index .active }
  | .busy c d =>
    { s with workers := s.workers.set w .idle,
             file := writeBytes s.file c.start d,
             fileLen := max s.fileLen (c.start + d.length),
             states := s.states.set c.index .done }
  | _ => s

/-- Run a schedule of worker actions. -/
def runSched (env : DLEnv) (sched : List Nat) (s : DLState) : DLState :=
  sched.foldl (step env) s

/-- All goroutines have returned (`wg.Wait()` has passed). -/
def Complete (s : DLState) : Prop :=
  ∀ w ∈ s.workers, w = WStatus.haltedOk ∨ w = WStatus.haltedFail

instance (s : DLState) : Decidable (Complete s) :=
  inferInstanceAs (Decidable (∀ w ∈ s.workers, _ ∨ _))

/-- The engine's return value: the first error drained from `errCh`,
`none` when no worker recorded one (run.go lines 372-377). -/
def resultOf (s : DLState) : Option Nat := s.errors.head?

theorem listGetD_set_ne {α : Type} (l : List α) {i j : Nat} (a d : α) (h : i ≠ j) :
    (l.set i a).getD j d = l.getD j d := by
  simp [List.getD, List.getElem?_set_ne h]

theorem listGetD_set_self {α : Type} (l : List α) {i : Nat} (a d : α) (h : i < l.length) :
    (l.set i a).getD i d = a := by
  simp [List.getD, List.getElem?_set_self, h]

theorem listGetD_of_le {α : Type} (l : List α) {i : Nat} (d : α) (h : l.length ≤ i) :
    l.getD i d = d := by
  simp [List.getD, List.getElem?_eq_none h]

theorem listGetD_replicate {α : Type} (n j : Nat) (a : α) :
    (List.replicate n a).getD j a = a := by
  rcases Nat.lt_or_ge j n with h | h
  · simp [List.getD, List.getElem?_replicate, h]
  · exact listGetD_of_le _ a (by simpa using h)

theorem listGetD_lt_length {α : Type} (l : List α) {i : Nat} {d x : α}
    (h : l.getD i d = x) (hne : x ≠ d) : i < l.length := by
  by_contra hge
  rw [listGetD_of_le l d (by omega)] at h
  exact hne h.symm

/-- Every member of the plan is some `chunkSpec`. -/
theorem mem_planChunks {t c : Nat} (hc : 0 < c) {ch : Chunk} (h : ch ∈ planChunks t c) :
    ∃ k, k < chunkCount t c ∧ ch = chunkSpec t c k := by
  rw [planChunks_eq hc] at h
  simp only [List.mem_map, List.mem_range] at h
  obtain ⟨k, hk, rfl⟩ := h
  exact ⟨k, hk, rfl⟩

/-- Pieces earlier in the plan end strictly before later pieces start. -/
theorem chunkSpec_end_lt_start {t c j k : Nat} (hc : 0 < c) (_hk : k < chunkCount t c) (hjk : j < k) :
    (chunkSpec t c j).endIdx < (chunkSpec t c k).start := by
  have hmul : (j + 1) * c ≤ k * c := Nat.mul_le_mul_right c (by omega)
  have hrw : j * c + c = (j + 1) * c := by ring
  simp only [chunkSpec]
  split <;> omega

/-- Distinct pieces of the plan occupy disjoint byte ranges. -/
theorem chunkSpec_disjoint {t c j k : Nat} (hc : 0 < c) (hj : j < chunkCount t c)
    (hk : k < chunkCount t c) (hne : j ≠ k) :
    (chunkSpec t c j).endIdx < (chunkSpec t c k).start ∨
      (chunkSpec t c k).endIdx < (chunkSpec t c j).start := by
  rcases Nat.lt_or_ge j k with h | h
  · exact Or.inl (chunkSpec_end_lt_start hc hk h)
  · exact Or.inr (chunkSpec_end_lt_start hc hj (by omega))

/-- Run invariant of the download worker pool, for the plan of a `t`-byte
object with piece size `cs`.  `k` counts the chunks already taken from the
channel. -/
structure InvAt (t cs : Nat) (env : DLEnv) (s : DLState) (k : Nat) : Prop where
  hlen : s.states.length = chunkCount t cs
  hk : k ≤ chunkCount t cs
  hq : s.queue = (planChunks t cs).drop k
  hwait : ∀ j, k ≤ j → stOf s j = .waiting
  hstarted : ∀ j, j < k → stOf s j ≠ .waiting
  herr : ∀ j, stOf s j = .failed ↔ j ∈ s.errors
  hbusy : ∀ w c d, s.workers.getD w .haltedOk = .busy c d →
      c ∈ planChunks t cs ∧ env.fetch c = some d ∧ stOf s c.index = .active
  hbusyU : ∀ w w' c c' d d', s.workers.getD w .haltedOk = .busy c d →
      s.workers.getD w' .haltedOk = .busy c' d' → c.index = c'.index → w = w'
  hactive : ∀ j, stOf s j = .active →
      ∃ w c d, s.workers.getD w .haltedOk = .busy c d ∧ c.index = j
  hokq : WStatus.haltedOk ∈ s.workers → s.queue = []

def Inv (t cs : Nat) (env : DLEnv) (s : DLState) : Prop :=
  ∃ k, InvAt t cs env s k

/-- One scheduled worker action preserves the run invariant. -/
theorem step_inv {t cs : Nat} {env : DLEnv} {s : DLState} {w : Nat} (hc : 0 < cs)
    (hinv : Inv t cs env s) : Inv t cs env (step env s w) := by
  obtain ⟨k, hlen, hkle, hq, hwait, hstarted, herr, hbusy, hbusyU, hactive, hokq⟩ := hinv
  unfold step
  split
  · -- worker is idle: it takes from the channel
    rename_i hgw
    have hwlt : w < s.workers.length :=
      listGetD_lt_length s.workers hgw (by intro h; cases h)
    split
    · -- channel empty and closed: the worker returns normally
      rename_i hq2
      refine ⟨k, hlen, hkle, hq, hwait, hstarted, herr, ?_, ?_, ?_, ?_⟩
      · intro w' c d h'
        rcases eq_or_ne w w' with rfl | hne
        · rw [listGetD_set_self _ _ _ hwlt] at h'
          cases h'
        · rw [listGetD_set_ne _ _ _ hne] at h'
          exact hbusy w' c d h'
      · intro w1 w2 c1 c2 d1 d2 h1 h2 hidx
        rcases eq_or_ne w w1 with rfl | hne1
        · rw [listGetD_set_self _ _ _ hwlt] at h1; cases h1
        · rcases eq_or_ne w w2 with rfl | hne2
          · rw [listGetD_set_self _ _ _ hwlt] at h2; cases h2
          · rw [listGetD_set_ne _ _ _ hne1] at h1
            rw [listGetD_set_ne _ _ _ hne2] at h2
            exact hbusyU w1 w2 c1 c2 d1 d2 h1 h2 hidx
      · intro j hj
        obtain ⟨w0, c0, d0, h0, hidx0⟩ := hactive j hj
        have hw0 : w0 ≠ w := by
          intro hEq; rw [hEq, hgw] at h0; cases h0
        refine ⟨w0, c0, d0, ?_, hidx0⟩
        rw [listGetD_set_ne _ _ _ (fun hEq => hw0 hEq.symm)]
        exact h0
      · intro _
        exact hq2
    · -- channel yields chunk `c`: range GET for its byte range
      rename_i c rest hq2
      have hklt : k < (planChunks t cs).length := by
        by_contra hge
        rw [List.drop_eq_nil_of_le (by omega)] at hq
        rw [hq2] at hq
        cases hq
      have hcr : c :: rest = (planChunks t cs)[k] :: (planChunks t cs).drop (k + 1) := by
        rw [← hq2, hq, List.drop_eq_getElem_cons hklt]
      have hcEq : c = (planChunks t cs)[k] := ((List.cons.injEq _ _ _ _).mp hcr).1
      have hrest : rest = (planChunks t cs).drop (k + 1) := ((List.cons.injEq _ _ _ _).mp hcr).2
      have hkcnt : k < chunkCount t cs := by rwa [planChunks_length hc] at hklt
      have hcmem : c ∈ planChunks t cs := hcEq ▸ List.getElem_mem hklt
      have hcidx : c.index = k := by rw [hcEq, planChunks_getElem hc k hklt]; rfl
      have hkstates : k < s.states.length := by rw [hlen]; exact hkcnt
      have hwaitk : stOf s k = .waiting := hwait k le_rfl
      have hqne : s.queue ≠ [] := by rw [hq2]; simp
      split
      · -- the range GET fails: record the error, mark failed, worker halts
        rename_i hf
        refine ⟨k + 1, ?_, by omega, hrest, ?_, ?_, ?_, ?_, ?_, ?_, ?_⟩
        · show (s.states.set c.index .failed).length = _
          rw [List.length_set]; exact hlen
        · intro j hj
          show (s.states.set c.index PState.failed).getD j .waiting = .waiting
          rw [hcidx, listGetD_set_ne _ _ _ (by omega)]
          exact hwait j (by omega)
        · intro j hj
          rcases eq_or_ne j k with rfl | hne
          · show (s.states.set c.index PState.failed).getD j .waiting ≠ .waiting
            rw [hcidx, listGetD_set_self _ _ _ hkstates]
            intro h; cases h
          · show (s.states.set c.index PState.failed).getD j .waiting ≠ .waiting
            rw [hcidx, listGetD_set_ne _ _ _ (Ne.symm hne)]
            exact hstarted j (by omega)
        · intro j
          show (s.states.set c.index PState.failed).getD j .waiting = .failed
            ↔ j ∈ s.errors ++ [c.index]
          rw [hcidx]
          rcases eq_or_ne j k with rfl | hne
          · rw [listGetD_set_self _ _ _ hkstates]
            simp
          · rw [listGetD_set_ne _ _ _ (Ne.symm hne)]
            rw [List.mem_append, List.mem_singleton]
            constructor
            · intro h; exact Or.inl ((herr j).mp h)
            · rintro (h | h)
              · exact (herr j).mpr h
              · exact absurd h hne
        · intro w' c' d' h'
          rcases eq_or_ne w w' with rfl | hne
          · rw [listGetD_set_self _ _ _ hwlt] at h'; cases h'
          · rw [listGetD_set_ne _ _ _ hne] at h'
            obtain ⟨hm, hfd, hact⟩ := hbusy w' c' d' h'
            refine ⟨hm, hfd, ?_⟩
            have hne2 : c.index ≠ c'.index := by
              rw [hcidx]
              intro hEq
              rw [← hEq, hwaitk] at hact
              cases hact
            show (s.states.set c.index PState.failed).getD c'.index .waiting = .active
            rw [listGetD_set_ne _ _ _ hne2]
            exact hact
        · intro w1 w2 c1 c2 d1 d2 h1 h2 hidx
          rcases eq_or_ne w w1 with rfl | hne1
          · rw [listGetD_set_self _ _ _ hwlt] at h1; cases h1
          · rcases eq_or_ne w w2 with rfl | hne2
            · rw [listGetD_set_self _ _ _ hwlt] at h2; cases h2
            · rw [listGetD_set_ne _ _ _ hne1] at h1
              rw [listGetD_set_ne _ _ _ hne2] at h2
              exact hbusyU w1 w2 c1 c2 d1 d2 h1 h2 hidx
        · intro j hj
          rcases eq_or_ne j k with rfl | hne
          · exfalso
            have hj2 : (s.states.set c.index PState.failed).getD j PState.waiting
                = PState.active := hj
            rw [hcidx, listGetD_set_self _ _ _ hkstates] at hj2
            cases hj2
          · have hj' : stOf s j = .active := by
              have hj2 : (s.states.set c.index PState.failed).getD j PState.waiting
                  = PState.active := hj
              rw [hcidx, listGetD_set_ne _ _ _ (Ne.symm hne)] at hj2
              exact hj2
            obtain ⟨w0, c0, d0, h0, hidx0⟩ := hactive j hj'
            have hw0 : w0 ≠ w := by
              intro hEq; rw [hEq, hgw] at h0; cases h0
            refine ⟨w0, c0, d0, ?_, hidx0⟩
            rw [listGetD_set_ne _ _ _ (fun hEq => hw0 hEq.symm)]
            exact h0
        · intro hmem
          exfalso
          rcases List.mem_or_eq_of_mem_set hmem with hmem' | hEq
          · exact hqne (hokq hmem')
          · cases hEq
      · -- the range GET succeeds: the worker now holds the bytes
        rename_i d hf
        refine ⟨k + 1, ?_, by omega, hrest, ?_, ?_, ?_, ?_, ?_, ?_, ?_⟩
        · show (s.states.set c.index .active).length = _
          rw [List.length_set]; exact hlen
        · intro j hj
          show (s.states.set c.index PState.active).getD j .waiting = .waiting
          rw [hcidx, listGetD_set_ne _ _ _ (by omega)]
          exact hwait j (by omega)
        · intro j hj
          rcases eq_or_ne j k with rfl | hne
          · show (s.states.set c.index PState.active).getD j .waiting ≠ .waiting
            rw [hcidx, listGetD_set_self _ _ _ hkstates]
            intro h; cases h
          · show (s.states.set c.index PState.active).getD j .waiting ≠ .waiting
            rw [hcidx, listGetD_set_ne _ _ _ (Ne.symm hne)]
            exact hstarted j (by omega)
        · intro j
          show (s.states.set c.index PState.active).getD j .waiting = .failed ↔ j ∈ s.errors
          rw [hcidx]
          rcases eq_or_ne j k with rfl | hne
          · rw [listGetD_set_self _ _ _ hkstates]
            constructor
            · intro h; cases h
            · intro h
              have h2 := (herr j).mpr h
              rw [hwaitk] at h2
              cases h2
          · rw [listGetD_set_ne _ _ _ (Ne.symm hne)]
            exact herr j
        · intro w' c' d' h'
          rcases eq_or_ne w w' with rfl | hne
          · rw [listGetD_set_self _ _ _ hwlt] at h'
            injection h' with hc1 hd1
            subst hc1; subst hd1
            refine ⟨hcmem, hf, ?_⟩
            show (s.states.set c.index PState.active).getD c.index .waiting = .active
            rw [hcidx, listGetD_set_self _ _ _ hkstates]
          · rw [listGetD_set_ne _ _ _ hne] at h'
            obtain ⟨hm, hfd, hact⟩ := hbusy w' c' d' h'
            refine ⟨hm, hfd, ?_⟩
            have hne2 : c.index ≠ c'.index := by
              rw [hcidx]
              intro hEq
              rw [← hEq, hwaitk] at hact
              cases hact
            show (s.states.set c.index PState.active).getD c'.index .waiting = .active
            rw [listGetD_set_ne _ _ _ hne2]
            exact hact
        · intro w1 w2 c1 c2 d1 d2 h1 h2 hidx
          rcases eq_or_ne w w1 with rfl | hne1
          · rcases eq_or_ne w w2 with rfl | hne2
            · rfl
            · exfalso
              rw [listGetD_set_self _ _ _ hwlt] at h1
              injection h1 with hc1 hd1
              rw [listGetD_set_ne _ _ _ hne2] at h2
              obtain ⟨_, _, hact2⟩ := hbusy w2 c2 d2 h2
              rw [← hc1, hcidx] at hidx
              rw [← hidx, hwaitk] at hact2
              cases hact2
          · rcases eq_or_ne w w2 with rfl | hne2
            · exfalso
              rw [listGetD_set_self _ _ _ hwlt] at h2
              injection h2 with hc2 hd2
              rw [listGetD_set_ne _ _ _ hne1] at h1
              obtain ⟨_, _, hact1⟩ := hbusy w1 c1 d1 h1
              rw [← hc2, hcidx] at hidx
              rw [hidx, hwaitk] at hact1
              cases hact1
            · rw [listGetD_set_ne _ _ _ hne1] at h1
              rw [listGetD_set_ne _ _ _ hne2] at h2
              exact hbusyU w1 w2 c1 c2 d1 d2 h1 h2 hidx
        · intro j hj
          rcases eq_or_ne j k with rfl | hne
          · refine ⟨w, c, d, ?_, hcidx⟩
            rw [listGetD_set_self _ _ _ hwlt]
          · have hj' : stOf s j = .active := by
              have hj2 : (s.states.set c.index PState.active).getD j PState.waiting
                  = PState.active := hj
              rw [hcidx, listGetD_set_ne _ _ _ (Ne.symm hne)] at hj2
              exact hj2
            obtain ⟨w0, c0, d0, h0, hidx0⟩ := hactive j hj'
            have hw0 : w0 ≠ w := by
              intro hEq; rw [hEq, hgw] at h0; cases h0
            refine ⟨w0, c0, d0, ?_, hidx0⟩
            rw [listGetD_set_ne _ _ _ (fun hEq => hw0 hEq.symm)]
            exact h0
        · intro hmem
          exfalso
          rcases List.mem_or_eq_of_mem_set hmem with hmem' | hEq
          · exact hqne (hokq hmem')
          · cases hEq
  · -- worker holds bytes: positional write, mark done
    rename_i c d hgw
    have hwlt : w < s.workers.length :=
      listGetD_lt_length s.workers hgw (by intro h; cases h)
    obtain ⟨hcmem, hcf, hcact⟩ := hbusy w c d hgw
    have hjk : c.index < k := by
      by_contra hge
      have hw2 := hwait c.index (by omega)
      rw [hw2] at hcact
      cases hcact
    have hcidxlt : c.index < s.states.length :=
      listGetD_lt_length s.states hcact (by intro h; cases h)
    refine ⟨k, ?_, hkle, hq, ?_, ?_, ?_, ?_, ?_, ?_, ?_⟩
    · show (s.states.set c.index .done).length = _
      rw [List.length_set]; exact hlen
    · intro j hj
      show (s.states.set c.index PState.done).getD j .waiting = .waiting
      rw [listGetD_set_ne _ _ _ (by omega)]
      exact hwait j hj
    · intro j hj
      rcases eq_or_ne j c.index with rfl | hne
      · show (s.states.set c.index PState.done).getD c.index .waiting ≠ .waiting
        rw [listGetD_set_self _ _ _ hcidxlt]
        intro h; cases h
      · show (s.states.set c.index PState.done).getD j .waiting ≠ .waiting
        rw [listGetD_set_ne _ _ _ (Ne.symm hne)]
        exact hstarted j hj
    · intro j
      rcases eq_or_ne j c.index with rfl | hne
      · show (s.states.set c.index PState.done).getD c.index .waiting = .failed
          ↔ c.index ∈ s.errors
        rw [listGetD_set_self _ _ _ hcidxlt]
        constructor
        · intro h; cases h
        · intro h
          have h2 := (herr c.index).mpr h
          rw [hcact] at h2
          cases h2
      · show (s.states.set c.index PState.done).getD j .waiting = .failed ↔ j ∈ s.errors
        rw [listGetD_set_ne _ _ _ (Ne.symm hne)]
        exact herr j
    · intro w' c' d' h'
      rcases eq_or_ne w w' with rfl | hne
      · rw [listGetD_set_self _ _ _ hwlt] at h'; cases h'
      · rw [listGetD_set_ne _ _ _ hne] at h'
        obtain ⟨hm, hfd, hact⟩ := hbusy w' c' d' h'
        have hne2 : c.index ≠ c'.index := by
          intro hEq
          exact hne (hbusyU w w' c c' d d' hgw h' hEq)
        refine ⟨hm, hfd, ?_⟩
        show (s.states.set c.index PState.done).getD c'.index .waiting = .active
        rw [listGetD_set_ne _ _ _ hne2]
        exact hact
    · intro w1 w2 c1 c2 d1 d2 h1 h2 hidx
      rcases eq_or_ne w w1 with rfl | hne1
      · rw [listGetD_set_self _ _ _ hwlt] at h1; cases h1
      · rcases eq_or_ne w w2 with rfl | hne2
        · rw [listGetD_set_self _ _ _ hwlt] at h2; cases h2
        · rw [listGetD_set_ne _ _ _ hne1] at h1
          rw [listGetD_set_ne _ _ _ hne2] at h2
          exact hbusyU w1 w2 c1 c2 d1 d2 h1 h2 hidx
    · intro j hj
      rcases eq_or_ne j c.index with rfl | hne
      · exfalso
        have hj2 : (s.states.set c.index PState.done).getD c.index PState.waiting
            = PState.active := hj
        rw [listGetD_set_self _ _ _ hcidxlt] at hj2
        cases hj2
      · have hj' : stOf s j = .active := by
          have hj2 : (s.states.set c.index PState.done).getD j PState.waiting
              = PState.active := hj
          rw [listGetD_set_ne _ _ _ (Ne.symm hne)] at hj2
          exact hj2
        obtain ⟨w0, c0, d0, h0, hidx0⟩ := hactive j hj'
        have hw0 : w0 ≠ w := by
          intro hEq
          rw [hEq, hgw] at h0
          injection h0 with hc0 hd0
          have hcj : c.index = j := by rw [hc0]; exact hidx0
          exact hne hcj.symm
        refine ⟨w0, c0, d0, ?_, hidx0⟩
        rw [listGetD_set_ne _ _ _ (fun hEq => hw0 hEq.symm)]
        exact h0
    · intro hmem
      rcases List.mem_or_eq_of_mem_set hmem with hmem' | hEq
      · exact hokq hmem'
      · cases hEq
  · -- worker already halted: no action
    exact ⟨k, hlen, hkle, hq, hwait, hstarted, herr, hbusy, hbusyU, hactive, hokq⟩

/-- The invariant holds along any schedule. -/
theorem runSched_inv {t cs : Nat} {env : DLEnv} {sched : List Nat} {s : DLState}
    (hc : 0 < cs) (hinv : Inv t cs env s) : Inv t cs env (runSched env sched s) := by
  induction sched generalizing s with
  | nil => exact hinv
  | cons w ws ih => exact ih (step_inv hc hinv)

/-- The invariant holds in the initial state. -/
theorem initState_inv (t cs : Nat) (env : DLEnv) (n : Nat) (hc : 0 < cs) :
    Inv t cs env (initState (planChunks t cs) n t) := by
  refine ⟨0, ?_, by omega, ?_, ?_, ?_, ?_, ?_, ?_, ?_, ?_⟩
  · show (List.replicate (planChunks t cs).length PState.waiting).length = _
    rw [List.length_replicate, planChunks_length hc]
  · show planChunks t cs = (planChunks t cs).drop 0
    rw [List.drop_zero]
  · intro j _
    exact listGetD_replicate _ _ _
  · intro j hj
    omega
  · intro j
    constructor
    · intro h
      rw [show stOf (initState (planChunks t cs) n t) j = PState.waiting from
        listGetD_replicate _ _ _] at h
      cases h
    · intro h
      exact absurd h (List.not_mem_nil j)
  · intro w c d h
    rcases Nat.lt_or_ge w n with hlt | hge
    · have hrep : (List.replicate n WStatus.idle).getD w .haltedOk = WStatus.idle := by
        simp [List.getD, List.getElem?_replicate, hlt]
      rw [show (initState (planChunks t cs) n t).workers = List.replicate n WStatus.idle
        from rfl, hrep] at h
      cases h
    · rw [show (initState (planChunks t cs) n t).workers = List.replicate n WStatus.idle
        from rfl, listGetD_of_le _ _ (by simpa using hge)] at h
      cases h
  · intro w1 w2 c1 c2 d1 d2 h1 h2 _
    exfalso
    rcases Nat.lt_or_ge w1 n with hlt | hge
    · have hrep : (List.replicate n WStatus.idle).getD w1 .haltedOk = WStatus.idle := by
        simp [List.getD, List.getElem?_replicate, hlt]
      rw [show (initState (planChunks t cs) n t).workers = List.replicate n WStatus.idle
        from rfl, hrep] at h1
      cases h1
    · rw [show (initState (planChunks t cs) n t).workers = List.replicate n WStatus.idle
        from rfl, listGetD_of_le _ _ (by simpa using hge)] at h1
      cases h1
  · intro j h
    rw [show stOf (initState (planChunks t cs) n t) j = PState.waiting from
      listGetD_replicate _ _ _] at h
    cases h
  · intro h
    have := List.eq_of_mem_replicate h
    cases this

/-- A step of worker `i` never changes the status of another worker `w`:
there is no cross-worker signalling. -/
theorem step_workers_other (env : DLEnv) (s : DLState) (i w : Nat) (h : i ≠ w) :
    (step env s i).workers.getD w .haltedOk = s.workers.getD w .haltedOk := by
  unfold step
  split
  · split
    · exact listGetD_set_ne _ _ _ h
    · split
      · exact listGetD_set_ne _ _ _ h
      · exact listGetD_set_ne _ _ _ h
  · exact listGetD_set_ne _ _ _ h
  · rfl

/-- A worker whose range GET fails halts (with a failure) in that same step. -/
theorem step_fail_halts (env : DLEnv) (s : DLState) (w : Nat) (c : Chunk) (rest : List Chunk)
    (hgw : s.workers.getD w .haltedOk = .idle) (hq : s.queue = c :: rest)
    (hf : env.fetch c = none) :
    (step env s w).workers.getD w .haltedOk = .haltedFail := by
  have hwlt : w < s.workers.length :=
    listGetD_lt_length s.workers hgw (by intro h; cases h)
  unfold step
  simp only [hgw, hq, hf]
  exact listGetD_set_self _ _ _ hwlt

/-- In any invariant state, no recorded error is equivalent to no failed piece. -/
theorem inv_errors_iff {t cs : Nat} {env : DLEnv} {s : DLState} (hinv : Inv t cs env s) :
    s.errors = [] ↔ ∀ st ∈ s.states, st ≠ PState.failed := by
  obtain ⟨k, hinv⟩ := hinv
  constructor
  · intro he st hst hf
    obtain ⟨j, hj, hEq⟩ := List.mem_iff_getElem.mp hst
    have hstj : stOf s j = PState.failed := by
      rw [stOf, List.getD_eq_getElem s.states _ hj, hEq, hf]
    have := (hinv.herr j).mp hstj
    rw [he] at this
    exact absurd this (List.not_mem_nil j)
  · intro hall
    by_contra hne
    obtain ⟨e, he⟩ := List.exists_mem_of_ne_nil s.errors hne
    have hf := (hinv.herr e).mpr he
    have helt : e < s.states.length := listGetD_lt_length s.states hf (by intro h; cases h)
    have hmem : s.states[e] ∈ s.states := List.getElem_mem helt
    have hEq : s.states[e] = PState.failed := by
      rw [← List.getD_eq_getElem s.states PState.waiting helt]
      exact hf
    exact hall _ hmem hEq

/-- C4: in a download run (any failures included), a failing worker halts by
itself, a step of one worker never changes another worker's status (no
cross-worker signalling), any normally-returned worker implies the chunk queue
was drained, the value returned after all workers have finished is the first
recorded chunk error, and it is `nil` exactly when no chunk failed. -/
theorem c4_failure_policy (t cs n : Nat) (env : DLEnv) (sched : List Nat) (hc : 0 < cs)
    (_hcomp : Complete (runSched env sched (initState (planChunks t cs) n t))) :
    (∀ s w c rest, s.workers.getD w .haltedOk = .idle → s.queue = c :: rest →
        env.fetch c = none → (step env s w).workers.getD w .haltedOk = .haltedFail)
    ∧ (∀ s i w, i ≠ w →
        (step env s i).workers.getD w .haltedOk = s.workers.getD w .haltedOk)
    ∧ ((∃ w ∈ (runSched env sched (initState (planChunks t cs) n t)).workers,
          w = WStatus.haltedOk) →
        (runSched env sched (initState (planChunks t cs) n t)).queue = [])
    ∧ resultOf (runSched env sched (initState (planChunks t cs) n t))
        = (runSched env sched (initState (planChunks t cs) n t)).errors.head?
    ∧ (resultOf (runSched env sched (initState (planChunks t cs) n t)) = none
        ↔ ∀ st ∈ (runSched env sched (initState (planChunks t cs) n t)).states,
            st ≠ PState.failed) := by
  have hinv : Inv t cs env (runSched env sched (initState (planChunks t cs) n t)) :=
    runSched_inv hc (initState_inv t cs env n hc)
  refine ⟨fun s w c rest h1 h2 h3 => step_fail_halts env s w c rest h1 h2 h3,
    fun s i w h => step_workers_other env s i w h, ?_, rfl, ?_⟩
  · rintro ⟨w, hw, rfl⟩
    obtain ⟨k, hinv⟩ := hinv
    exact hinv.hokq hw
  · rw [resultOf, List.head?_eq_none_iff]
    exact inv_errors_iff hinv

/-- Witness for C4: a 3-byte object in two chunks, two workers, the first
chunk's range GET fails while the second succeeds; the schedule completes. -/
theorem c4_failure_policy_witness :
    (0 < 2 ∧ Complete (runSched ⟨fun c => if c.index = 0 then none else some [9]⟩ [0, 1, 1, 1]
        (initState (planChunks 3 2) 2 3)))
    ∧ ((∀ s w c rest, s.workers.getD w .haltedOk = .idle → s.queue = c :: rest →
        DLEnv.fetch ⟨fun c => if c.index = 0 then none else some [9]⟩ c = none →
        (step ⟨fun c => if c.index = 0 then none else some [9]⟩ s w).workers.getD w .haltedOk
          = .haltedFail)
    ∧ (∀ s i w, i ≠ w →
        (step ⟨fun c => if c.index = 0 then none else some [9]⟩ s i).workers.getD w .haltedOk
          = s.workers.getD w .haltedOk)
    ∧ ((∃ w ∈ (runSched ⟨fun c => if c.index = 0 then none else some [9]⟩ [0, 1, 1, 1]
          (initState (planChunks 3 2) 2 3)).workers, w = WStatus.haltedOk) →
        (runSched ⟨fun c => if c.index = 0 then none else some [9]⟩ [0, 1, 1, 1]
          (initState (planChunks 3 2) 2 3)).queue = [])
    ∧ resultOf (runSched ⟨fun c => if c.index = 0 then none else some [9]⟩ [0, 1, 1, 1]
          (initState (planChunks 3 2) 2 3))
        = (runSched ⟨fun c => if c.index = 0 then none else some [9]⟩ [0, 1, 1, 1]
          (initState (planChunks 3 2) 2 3)).errors.head?
    ∧ (resultOf (runSched ⟨fun c => if c.index = 0 then none else some [9]⟩ [0, 1, 1, 1]
          (initState (planChunks 3 2) 2 3)) = none
        ↔ ∀ st ∈ (runSched ⟨fun c => if c.index = 0 then none else some [9]⟩ [0, 1, 1, 1]
          (initState (planChunks 3 2) 2 3)).states, st ≠ PState.failed)) :=
  ⟨⟨by decide, by decide⟩,
    c4_failure_policy 3 2 2 ⟨fun c => if c.index = 0 then none else some [9]⟩ [0, 1, 1, 1]
      (by decide) (by decide)⟩

/-- C5 counterexample: the code performs no validation of the configuration.
A download job with concurrency 0 (`< 1`) is not rejected with an error:
with zero workers `wg.Wait()` returns immediately, `errCh` is empty, and the
run "succeeds" (`resultOf = none`) although every chunk is still waiting and
nothing was transferred.  This contradicts the claim that any job with
concurrency `< 1` is rejected with an error before any piece is attempted. -/
theorem c5_counterexample :
    Complete (runSched ⟨fun _ => some [0, 0]⟩ [] (initState (planChunks 3 2) 0 3))
    ∧ resultOf (runSched ⟨fun _ => some [0, 0]⟩ [] (initState (planChunks 3 2) 0 3)) = none
    ∧ (runSched ⟨fun _ => some [0, 0]⟩ [] (initState (planChunks 3 2) 0 3)).states
        = [PState.waiting, PState.waiting] :=
  ⟨by decide, rfl, by decide⟩

/-- C5 amended: neither `Run` nor `download` validates piece size or
concurrency.  A job with concurrency 0 is accepted: every schedule leaves the
initial state untouched, the run is immediately complete, returns no error,
and every piece stays waiting.  (A piece size ≤ 0 is not rejected either: the
Go planning loop simply never terminates, which the claims over `chunkSize > 0`
never reach.) -/
theorem c5_amended (t cs : Nat) (env : DLEnv) (sched : List Nat) :
    runSched env sched (initState (planChunks t cs) 0 t) = initState (planChunks t cs) 0 t
    ∧ Complete (initState (planChunks t cs) 0 t)
    ∧ resultOf (initState (planChunks t cs) 0 t) = none
    ∧ ∀ st ∈ (initState (planChunks t cs) 0 t).states, st = PState.waiting := by
  refine ⟨?_, ?_, rfl, ?_⟩
  · induction sched with
    | nil => rfl
    | cons w ws ih => exact ih
  · intro w hw
    rw [show (initState (planChunks t cs) 0 t).workers = [] from rfl] at hw
    cases hw
  · intro st hst
    exact List.eq_of_mem_replicate hst

/-!
## Destination file correctness

`FileInv` tracks what C7 and C8 need: the destination file keeps its pre-sized
length `totalSize`, and every piece marked done has its fetched bytes at its
own offset.  It is preserved for environments whose successful responses have
exactly the requested range length (an S3 range GET returns the requested
bytes). -/

/-- The environment answers every successful fetch with exactly the chunk's
byte count. -/
def EnvLen (t cs : Nat) (env : DLEnv) : Prop :=
  ∀ c ∈ planChunks t cs, ∀ d, env.fetch c = some d → d.length = clen c

structure FileInv (t cs : Nat) (env : DLEnv) (s : DLState) : Prop where
  hflen : s.fileLen = t
  hfdone : ∀ j, stOf s j = .done → ∃ c d, c ∈ planChunks t cs ∧ c.index = j ∧
      env.fetch c = some d ∧ ∀ p < d.length, s.file (c.start + p) = d.getD p 0

theorem initState_fileinv (t cs n : Nat) (env : DLEnv) :
    FileInv t cs env (initState (planChunks t cs) n t) := by
  refine ⟨rfl, ?_⟩
  intro j hj
  rw [show stOf (initState (planChunks t cs) n t) j = PState.waiting from
    listGetD_replicate _ _ _] at hj
  cases hj

/-- A chunk of the plan occupies `[start, endIdx] ⊆ [0, t)` with
`start + clen = endIdx + 1`. -/
theorem mem_planChunks_bounds {t cs : Nat} (hc : 0 < cs) {c : Chunk}
    (hm : c ∈ planChunks t cs) :
    c.start + clen c = c.endIdx + 1 ∧ c.endIdx < t := by
  obtain ⟨k, hk, rfl⟩ := mem_planChunks hc hm
  have hb := chunkSpec_bounds hc hk
  unfold clen
  omega

theorem step_fileinv {t cs : Nat} {env : DLEnv} {s : DLState} {w : Nat} (hc : 0 < cs)
    (henv : EnvLen t cs env) (hinv : Inv t cs env s) (hfi : FileInv t cs env s) :
    FileInv t cs env (step env s w) := by
  obtain ⟨k, hlen, hkle, hq, hwait, hstarted, herr, hbusy, hbusyU, hactive, hokq⟩ := hinv
  obtain ⟨hflen, hfdone⟩ := hfi
  unfold step
  split
  · rename_i hgw
    split
    · exact ⟨hflen, hfdone⟩
    · rename_i c rest hq2
      have hwaitCk : stOf s c.index = .waiting := by
        have hklt : k < (planChunks t cs).length := by
          by_contra hge
          rw [List.drop_eq_nil_of_le (by omega)] at hq
          exact absurd hq.symm (by rw [hq2]; simp)
        have hcr : c :: rest = (planChunks t cs)[k] :: (planChunks t cs).drop (k + 1) := by
          rw [← hq2, hq, List.drop_eq_getElem_cons hklt]
        have hcEq : c = (planChunks t cs)[k] := ((List.cons.injEq _ _ _ _).mp hcr).1
        have hcidx : c.index = k := by rw [hcEq, planChunks_getElem hc k hklt]; rfl
        rw [hcidx]
        exact hwait k le_rfl
      split
      · refine ⟨hflen, ?_⟩
        intro j hj
        have hjne : j ≠ c.index := by
          intro hEq
          have hj2 : (s.states.set c.index PState.failed).getD j PState.waiting
              = PState.done := hj
          rw [hEq] at hj2
          rcases Nat.lt_or_ge c.index s.states.length with hlt | hge
          · rw [listGetD_set_self _ _ _ hlt] at hj2
            cases hj2
          · rw [List.set_eq_of_length_le (by omega)] at hj2
            rw [stOf] at hwaitCk
            rw [hwaitCk] at hj2
            cases hj2
        have hj' : stOf s j = .done := by
          have hj2 : (s.states.set c.index PState.failed).getD j PState.waiting
              = PState.done := hj
          rw [listGetD_set_ne _ _ _ (fun h => hjne h.symm)] at hj2
          exact hj2
        exact hfdone j hj'
      · refine ⟨hflen, ?_⟩
        intro j hj
        have hjne : j ≠ c.index := by
          intro hEq
          have hj2 : (s.states.set c.index PState.active).getD j PState.waiting
              = PState.done := hj
          rw [hEq] at hj2
          rcases Nat.lt_or_ge c.index s.states.length with hlt | hge
          · rw [listGetD_set_self _ _ _ hlt] at hj2
            cases hj2
          · rw [List.set_eq_of_length_le (by omega)] at hj2
            rw [stOf] at hwaitCk
            rw [hwaitCk] at hj2
            cases hj2
        have hj' : stOf s j = .done := by
          have hj2 : (s.states.set c.index PState.active).getD j PState.waiting
              = PState.done := hj
          rw [listGetD_set_ne _ _ _ (fun h => hjne h.symm)] at hj2
          exact hj2
        exact hfdone j hj'
  · -- the write step
    rename_i c d hgw
    obtain ⟨hcmem, hcf, hcact⟩ := hbusy w c d hgw
    have hdlen : d.length = clen c := henv c hcmem d hcf
    obtain ⟨hsum, hend⟩ := mem_planChunks_bounds hc hcmem
    have hcidxlt : c.index < s.states.length :=
      listGetD_lt_length s.states hcact (by intro h; cases h)
    refine ⟨?_, ?_⟩
    · show max s.fileLen (c.start + d.length) = t
      rw [hflen, hdlen]
      omega
    · intro j hj
      rcases eq_or_ne j c.index with rfl | hne
      · refine ⟨c, d, hcmem, rfl, hcf, ?_⟩
        intro p hp
        show writeBytes s.file c.start d (c.start + p) = d.getD p 0
        unfold writeBytes
        rw [if_pos (by omega)]
        congr 1
        omega
      · have hj' : stOf s j = .done := by
          have hj2 : (s.states.set c.index PState.done).getD j PState.waiting
              = PState.done := hj
          rw [listGetD_set_ne _ _ _ (Ne.symm hne)] at hj2
          exact hj2
        obtain ⟨c2, d2, hm2, hidx2, hf2, hfile2⟩ := hfdone j hj'
        refine ⟨c2, d2, hm2, hidx2, hf2, ?_⟩
        intro p hp
        show writeBytes s.file c.start d (c2.start + p) = d2.getD p 0
        have hd2len : d2.length = clen c2 := henv c2 hm2 d2 hf2
        obtain ⟨hsum2, _⟩ := mem_planChunks_bounds hc hm2
        obtain ⟨k1, hk1, hspec1⟩ := mem_planChunks hc hcmem
        obtain ⟨k2, hk2, hspec2⟩ := mem_planChunks hc hm2
        have hk1i : c.index = k1 := by rw [hspec1]; rfl
        have hk2i : c2.index = k2 := by rw [hspec2]; rfl
        have hkne : k1 ≠ k2 := by
          intro hEq
          apply hne
          rw [← hidx2, hk2i, hk1i, hEq]
        have hdisj := chunkSpec_disjoint hc hk1 hk2 hkne
        rw [← hspec1, ← hspec2] at hdisj
        unfold writeBytes
        rw [if_neg (by omega)]
        exact hfile2 p hp
  · exact ⟨hflen, hfdone⟩

theorem runSched_fileinv {t cs : Nat} {env : DLEnv} {sched : List Nat} {s : DLState}
    (hc : 0 < cs) (henv : EnvLen t cs env) (hinv : Inv t cs env s)
    (hfi : FileInv t cs env s) : FileInv t cs env (runSched env sched s) := by
  induction sched generalizing s with
  | nil => exact hfi
  | cons w ws ih => exact ih (step_inv hc hinv) (step_fileinv hc henv hinv hfi)

/-- C7: the destination file is created with length exactly `totalSize` before
any chunk transfer begins (the initial state of every run), and after any
schedule of worker actions — including runs where fetches fail mid-way — its
length is still exactly `totalSize`. -/
theorem c7_presized_file (t cs n : Nat) (env : DLEnv) (hc : 0 < cs)
    (henv : ∀ c ∈ planChunks t cs, ∀ d, env.fetch c = some d → d.length = clen c) :
    (initState (planChunks t cs) n t).fileLen = t
    ∧ ∀ sched, (runSched env sched (initState (planChunks t cs) n t)).fileLen = t :=
  ⟨rfl, fun _ => (runSched_fileinv hc henv (initState_inv t cs env n hc)
    (initState_fileinv t cs n env)).hflen⟩

/-- Witness for C7: 3-byte object, 2-byte pieces, one worker; the oracle
returns exactly the requested number of bytes. -/
theorem c7_presized_file_witness :
    (0 < 2
      ∧ (∀ c ∈ planChunks 3 2, ∀ d, DLEnv.fetch ⟨fun c => some (List.replicate (clen c) 7)⟩ c
          = some d → d.length = clen c))
    ∧ ((initState (planChunks 3 2) 1 3).fileLen = 3
      ∧ ∀ sched, (runSched ⟨fun c => some (List.replicate (clen c) 7)⟩ sched
          (initState (planChunks 3 2) 1 3)).fileLen = 3) :=
  ⟨⟨by decide, fun c _ d hd => by
      injection hd with h
      rw [← h, List.length_replicate]⟩,
    c7_presized_file 3 2 1 ⟨fun c => some (List.replicate (clen c) 7)⟩ (by decide)
      (fun c _ d hd => by
        injection hd with h
        rw [← h, List.length_replicate])⟩

/-!
## Concurrency invariance of a fully successful download (C8)

For a fully successful run the storage oracle is total: every range GET
returns the stored bytes of that range.  Any complete run then leaves every
piece done and the file bytes are determined by the responses alone, so the
result does not depend on the concurrency or the interleaving. -/

/-- An always-successful storage oracle answering with `resp`. -/
def envTotal (resp : Chunk → List Nat) : DLEnv := ⟨fun c => some (resp c)⟩

/-- No error recorded, no worker halted with a failure. -/
def NoFail (s : DLState) : Prop :=
  s.errors = [] ∧ ∀ x ∈ s.workers, x ≠ WStatus.haltedFail

theorem step_nofail (resp : Chunk → List Nat) (s : DLState) (w : Nat)
    (h : NoFail s) : NoFail (step (envTotal resp) s w) := by
  obtain ⟨he, hw⟩ := h
  unfold step
  split
  · split
    · refine ⟨he, ?_⟩
      intro x hx
      rcases List.mem_or_eq_of_mem_set hx with hx' | rfl
      · exact hw x hx'
      · intro h2; cases h2
    · split
      · rename_i heq
        exact absurd heq (by simp [envTotal])
      · refine ⟨he, ?_⟩
        intro x hx
        rcases List.mem_or_eq_of_mem_set hx with hx' | rfl
        · exact hw x hx'
        · intro h2; cases h2
  · refine ⟨he, ?_⟩
    intro x hx
    rcases List.mem_or_eq_of_mem_set hx with hx' | rfl
    · exact hw x hx'
    · intro h2; cases h2
  · exact ⟨he, hw⟩

theorem runSched_nofail (resp : Chunk → List Nat) (sched : List Nat) {s : DLState}
    (h : NoFail s) : NoFail (runSched (envTotal resp) sched s) := by
  induction sched generalizing s with
  | nil => exact h
  | cons w ws ih => exact ih (step_nofail resp s w h)

theorem initState_nofail (chunks : List Chunk) (n totalSize : Nat) :
    NoFail (initState chunks n totalSize) := by
  refine ⟨rfl, ?_⟩
  intro x hx
  have hEq := List.eq_of_mem_replicate hx
  rw [hEq]
  intro h2; cases h2

theorem step_workers_length (env : DLEnv) (s : DLState) (w : Nat) :
    (step env s w).workers.length = s.workers.length := by
  unfold step
  split
  · split
    · simp
    · split <;> simp
  · simp
  · rfl

theorem runSched_workers_length (env : DLEnv) (sched : List Nat) (s : DLState) :
    (runSched env sched s).workers.length = s.workers.length := by
  induction sched generalizing s with
  | nil => rfl
  | cons w ws ih =>
    rw [show runSched env (w :: ws) s = runSched env ws (step env s w) from rfl,
      ih, step_workers_length]

/-- In a complete, fully successful run every planned piece ends up done. -/
theorem complete_total_done {t cs n : Nat} {resp : Chunk → List Nat} {sched : List Nat}
    (hc : 0 < cs) (hn : 0 < n)
    (hcomp : Complete (runSched (envTotal resp) sched (initState (planChunks t cs) n t))) :
    ∀ j, j < chunkCount t cs →
      stOf (runSched (envTotal resp) sched (initState (planChunks t cs) n t)) j
        = PState.done := by
  set f := runSched (envTotal resp) sched (initState (planChunks t cs) n t) with hfdef
  obtain ⟨k, hlen, hkle, hq, hwait, hstarted, herr, hbusy, hbusyU, hactive, hokq⟩ :=
    runSched_inv hc (initState_inv t cs (envTotal resp) n hc)
  obtain ⟨herrs, hnf⟩ :=
    runSched_nofail resp sched (initState_nofail (planChunks t cs) n t)
  have hallok : ∀ x ∈ f.workers, x = WStatus.haltedOk := by
    intro x hx
    rcases hcomp x hx with h | h
    · exact h
    · exact absurd h (hnf x hx)
  have hlenw : f.workers.length = n := by
    rw [hfdef, runSched_workers_length]
    exact List.length_replicate n _
  have hne : f.workers ≠ [] := by
    intro h0
    rw [h0] at hlenw
    simp at hlenw
    omega
  obtain ⟨x, hx⟩ := List.exists_mem_of_ne_nil _ hne
  have hok : WStatus.haltedOk ∈ f.workers := by
    rw [← hallok x hx]
    exact hx
  have hqnil := hokq hok
  have hkn : k = chunkCount t cs := by
    rw [hq] at hqnil
    have hle := List.drop_eq_nil_iff.mp hqnil
    rw [planChunks_length hc] at hle
    omega
  intro j hj
  have hnw : stOf f j ≠ PState.waiting := hstarted j (by omega)
  have hnfj : stOf f j ≠ PState.failed := by
    intro h2
    have := (herr j).mp h2
    rw [herrs] at this
    cases this
  have hna : stOf f j ≠ PState.active := by
    intro h2
    obtain ⟨w0, c0, d0, h0, _⟩ := hactive j h2
    have hw0lt : w0 < f.workers.length :=
      listGetD_lt_length _ h0 (by intro hh; cases hh)
    rw [List.getD_eq_getElem _ WStatus.haltedOk hw0lt] at h0
    have hmem := List.getElem_mem hw0lt
    have := hallok _ hmem
    rw [h0] at this
    cases this
  cases hst : stOf f j with
  | waiting => exact absurd hst hnw
  | active => exact absurd hst hna
  | done => rfl
  | failed => exact absurd hst hnfj

/-- Position `p < t` is covered by piece `p / c`. -/
theorem chunkSpec_covering {t c p : Nat} (hc : 0 < c) (hp : p < t) :
    p / c < chunkCount t c ∧ (chunkSpec t c (p / c)).start ≤ p
      ∧ p ≤ (chunkSpec t c (p / c)).endIdx := by
  refine ⟨div_lt_chunkCount hc hp, Nat.div_mul_le_self p c, ?_⟩
  have h2 : c * (p / c) + p % c = p := Nat.div_add_mod p c
  have h3 : p % c < c := Nat.mod_lt p hc
  have h4 : c * (p / c) = p / c * c := by ring
  simp only [chunkSpec]
  split <;> omega

/-- After a complete, fully successful run, byte `p` of the file is byte
`p mod pieceSize` of the response for piece `p / pieceSize` — a value that
depends only on the object, piece size and responses. -/
theorem complete_total_file {t cs n : Nat} {resp : Chunk → List Nat} {sched : List Nat}
    (hc : 0 < cs) (hn : 0 < n)
    (hlenr : ∀ c ∈ planChunks t cs, (resp c).length = clen c)
    (hcomp : Complete (runSched (envTotal resp) sched (initState (planChunks t cs) n t))) :
    ∀ p, p < t →
      (runSched (envTotal resp) sched (initState (planChunks t cs) n t)).file p
        = (resp (chunkSpec t cs (p / cs))).getD (p - p / cs * cs) 0 := by
  have henv : EnvLen t cs (envTotal resp) := by
    intro c hm d hd
    injection hd with h
    rw [← h]
    exact hlenr c hm
  have hfi : FileInv t cs (envTotal resp)
      (runSched (envTotal resp) sched (initState (planChunks t cs) n t)) :=
    runSched_fileinv hc henv (initState_inv t cs (envTotal resp) n hc)
      (initState_fileinv t cs n (envTotal resp))
  have hdone := complete_total_done hc hn hcomp
  intro p hp
  obtain ⟨hklt, hstart, hend⟩ := @chunkSpec_covering t cs p hc hp
  have hst := hdone (p / cs) hklt
  obtain ⟨c2, d2, hm2, hidx2, hf2, hfile2⟩ := hfi.hfdone (p / cs) hst
  obtain ⟨k2, hk2, hspec2⟩ := mem_planChunks hc hm2
  have hk2e : k2 = p / cs := by
    rw [hspec2] at hidx2
    exact hidx2
  have hc2 : c2 = chunkSpec t cs (p / cs) := by rw [hspec2, hk2e]
  have hd2 : d2 = resp c2 := by
    have h5 : some (resp c2) = some d2 := hf2
    injection h5 with h5
    exact h5.symm
  have hd2len : d2.length = clen c2 := by
    rw [hd2]
    exact hlenr c2 hm2
  rw [← hc2] at hstart hend
  have hplt : p - c2.start < d2.length := by
    rw [hd2len]
    unfold clen
    omega
  have hval := hfile2 (p - c2.start) hplt
  have hpe : c2.start + (p - c2.start) = p := by omega
  rw [hpe] at hval
  rw [hval, hd2, hc2]
  rfl

/-- C8: for every object size, piece size and well-formed storage responses,
a fully successful complete download with concurrency 1 produces a destination
file byte-identical (on `[0, totalSize)`) to a fully successful complete
download with concurrency 8. -/
theorem c8_concurrency_invariant (t cs : Nat) (hc : 0 < cs) (resp : Chunk → List Nat)
    (hlenr : ∀ c ∈ planChunks t cs, (resp c).length = clen c)
    (sched1 sched8 : List Nat)
    (h1 : Complete (runSched (envTotal resp) sched1 (initState (planChunks t cs) 1 t)))
    (h8 : Complete (runSched (envTotal resp) sched8 (initState (planChunks t cs) 8 t))) :
    ∀ p, p < t →
      (runSched (envTotal resp) sched1 (initState (planChunks t cs) 1 t)).file p
        = (runSched (envTotal resp) sched8 (initState (planChunks t cs) 8 t)).file p := by
  intro p hp
  rw [complete_total_file hc (by omega) hlenr h1 p hp,
    complete_total_file hc (by omega) hlenr h8 p hp]

/-- Witness for C8: 3-byte object, 2-byte pieces; each response returns the
requested bytes; both a 1-worker and an 8-worker schedule run to completion. -/
theorem c8_concurrency_invariant_witness :
    (0 < 2
    ∧ (∀ c ∈ planChunks 3 2,
        (((List.range (clen c)).map (fun j => c.start + j + 10)) : List Nat).length = clen c)
    ∧ Complete (runSched (envTotal (fun c => (List.range (clen c)).map
        (fun j => c.start + j + 10))) [0, 0, 0, 0, 0] (initState (planChunks 3 2) 1 3))
    ∧ Complete (runSched (envTotal (fun c => (List.range (clen c)).map
        (fun j => c.start + j + 10))) [0, 1, 0, 1, 0, 1, 2, 3, 4, 5, 6, 7]
        (initState (planChunks 3 2) 8 3)))
    ∧ ∀ p, p < 3 →
      (runSched (envTotal (fun c => (List.range (clen c)).map (fun j => c.start + j + 10)))
        [0, 0, 0, 0, 0] (initState (planChunks 3 2) 1 3)).file p
      = (runSched (envTotal (fun c => (List.range (clen c)).map (fun j => c.start + j + 10)))
        [0, 1, 0, 1, 0, 1, 2, 3, 4, 5, 6, 7] (initState (planChunks 3 2) 8 3)).file p :=
  ⟨⟨by decide, by decide, by decide, by decide⟩,
    c8_concurrency_invariant 3 2 (by decide)
      (fun c => (List.range (clen c)).map (fun j => c.start + j + 10)) (by decide)
      [0, 0, 0, 0, 0] [0, 1, 0, 1, 0, 1, 2, 3, 4, 5, 6, 7] (by decide) (by decide)⟩

/-!
## Multipart upload

`uploadMultipart` of `internal/cmd/upload/run.go` (lines 177-270) is a single
sequential loop: create the session, then for each part read the next
`chunkSize` bytes at `offset` with `ReadAt`, call `UploadPart`, append the
returned `{ETag, PartNumber}` to `completedParts`, and finally call
`CompleteMultipartUpload` with all collected parts; a read or part failure
issues `AbortMultipartUpload` (whose result is discarded) and returns the
failure.  The embedding records every storage call as a `UEvent` in call
order and returns the error result. -/

/-- A storage call made by the multipart upload path, in call order. -/
inductive UEvent where
  | create
  | uploadPart (partNumber : Nat) (data : List Nat)
  | complete (parts : List (Nat × Nat))
  | abort
deriving DecidableEq, Repr

/-- The error result of `uploadMultipart`, identified by its cause. -/
inductive UErr where
  | createFail
  | readFail (offset : Nat)
  | partFail (partNumber : Nat)
  | completeFail
deriving DecidableEq, Repr

/-- Oracles for the local file and the storage responses.  `abortRes` is the
return value of `AbortMultipartUpload`, which the Go code discards (server
tags are numbers here; they are opaque strings in the code). -/
structure UploadEnv where
  size : Nat
  byteAt : Nat → Nat
  readOk : Nat → Bool
  partTag : Nat → Option Nat
  createOk : Bool
  completeOk : Bool
  abortRes : Option UErr

/-- The `len` bytes delivered by `file.ReadAt(buf, offset)`. -/
def readData (env : UploadEnv) (offset len : Nat) : List Nat :=
  (List.range len).map (fun j => env.byteAt (offset + j))

/-- The part loop of `uploadMultipart` (run.go lines 212-256):

```
for offset < totalSize {
    remaining := totalSize - offset
    chunkSize := partSizeBytes
    if remaining < chunkSize { chunkSize = remaining }
    buf := make([]byte, chunkSize)
    _, err := file.ReadAt(buf, offset)            // failure → abort, return
    uploadResp, err := client.UploadPart(...)     // failure → abort, return
    completedParts = append(completedParts, {ETag, PartNumber})
    offset += chunkSize; partNumber++
}
```

Returns the storage calls of the loop, the collected `completedParts`, and the
loop's error, if any.  `fuel` is termination bookkeeping only: the loop runs
`ceil(size/partSizeBytes) ≤ size` times for `partSizeBytes ≥ 1` (which the
caller guarantees), so `fuel = size` never runs out.  The recursive call is
written three times (once per component); all three are the same value. -/
def uploadLoop (env : UploadEnv) (partSizeBytes : Nat) :
    Nat → Nat → Nat → List (Nat × Nat) → List UEvent × List (Nat × Nat) × Option UErr
  | 0, _, _, acc => ([], acc, none)
  | fuel + 1, offset, partNumber, acc =>
    if offset < env.size then
      if env.readOk offset = false then
        ([UEvent.abort], acc, some (UErr.readFail offset))
      else
        match env.partTag partNumber with
        | none =>
          ([UEvent.uploadPart partNumber (readData env offset
              (if env.size - offset < partSizeBytes then env.size - offset else partSizeBytes)),
            UEvent.abort], acc, some (UErr.partFail partNumber))
        | some tg =>
          (UEvent.uploadPart partNumber (readData env offset
              (if env.size - offset < partSizeBytes then env.size - offset else partSizeBytes))
            :: (uploadLoop env partSizeBytes fuel
              (offset + (if env.size - offset < partSizeBytes then env.size - offset
                else partSizeBytes)) (partNumber + 1) (acc ++ [(partNumber, tg)])).1,
            (uploadLoop env partSizeBytes fuel
              (offset + (if env.size - offset < partSizeBytes then env.size - offset
                else partSizeBytes)) (partNumber + 1) (acc ++ [(partNumber, tg)])).2.1,
            (uploadLoop env partSizeBytes fuel
              (offset + (if env.size - offset < partSizeBytes then env.size - offset
                else partSizeBytes)) (partNumber + 1) (acc ++ [(partNumber, tg)])).2.2)
    else ([], acc, none)

/-- `uploadMultipart` (run.go lines 177-270): the `partSizeBytes <= 0` guard
(lines 190-193), `CreateMultipartUpload`, the part loop from `offset = 0`,
`partNumber = 1`, and `CompleteMultipartUpload` with the collected parts.
Returns the trace of storage calls and the error result. -/
def uploadMultipart (env : UploadEnv) (partSize : Nat) : List UEvent × Option UErr :=
  let partSizeBytes := if partSize = 0 then 10 * 1024 * 1024 else partSize
  if env.createOk = false then
    ([UEvent.create], some UErr.createFail)
  else
    match uploadLoop env partSizeBytes env.size 0 1 [] with
    | (evs, _parts, some e) => (UEvent.create :: evs, some e)
    | (evs, parts, none) =>
      (UEvent.create :: (evs ++ [UEvent.complete parts]),
        if env.completeOk then none else some UErr.completeFail)

/-- Past the end of the file the loop performs no call, with any fuel. -/
theorem uploadLoop_stop (env : UploadEnv) (ps fuel offset pn : Nat)
    (acc : List (Nat × Nat)) (h : env.size ≤ offset) :
    uploadLoop env ps fuel offset pn acc = ([], acc, none) := by
  cases fuel with
  | zero => rfl
  | succ fuel =>
    show (if offset < env.size then _ else _) = _
    rw [if_neg (by omega)]

/-- Closed form of a fully successful part loop starting at part `k + 1`,
offset `k * ps`: it uploads the remaining `ceil((size - k*ps)/ps)` parts with
consecutive part numbers and contiguous reads, appends the matching
`{partNumber, serverTag}` pairs in order, and reports no error. -/
theorem uploadLoop_success (env : UploadEnv) (ps : Nat) (hps : 0 < ps) (tagF : Nat → Nat)
    (hread : ∀ o, env.readOk o = true) (hpart : ∀ j, env.partTag j = some (tagF j)) :
    ∀ fuel k acc, chunkCount (env.size - k * ps) ps ≤ fuel →
      uploadLoop env ps fuel (k * ps) (k + 1) acc =
        ((List.range (chunkCount (env.size - k * ps) ps)).map
            (fun j => UEvent.uploadPart (k + 1 + j) (readData env ((k + j) * ps)
              (if env.size - (k + j) * ps < ps then env.size - (k + j) * ps else ps))),
          acc ++ (List.range (chunkCount (env.size - k * ps) ps)).map
            (fun j => (k + 1 + j, tagF (k + 1 + j))),
          none) := by
  intro fuel
  induction fuel with
  | zero =>
    intro k acc h
    have h0 : chunkCount (env.size - k * ps) ps = 0 := by omega
    have hsz : env.size ≤ k * ps := by
      have := (chunkCount_eq_zero_iff hps).mp h0
      omega
    rw [uploadLoop_stop env ps 0 _ _ _ hsz, h0]
    simp
  | succ fuel ih =>
    intro k acc h
    by_cases hlt : k * ps < env.size
    · have hpos : 0 < env.size - k * ps := by omega
      simp only [uploadLoop]
      rw [if_pos hlt]
      split
      · rename_i hro
        rw [hread (k * ps)] at hro
        cases hro
      · split
        · rename_i hpt
          rw [hpart (k + 1)] at hpt
          cases hpt
        · rename_i tg hpt
          have htg : tg = tagF (k + 1) := by
            rw [hpart (k + 1)] at hpt
            injection hpt with h5
            exact h5.symm
          subst htg
          rcases Nat.lt_or_ge (env.size - k * ps) ps with hrem | hrem
          · -- final short part: the loop then stops at offset = size
            have h1 : chunkCount (env.size - k * ps) ps = 1 := by
              rw [chunkCount_succ hps hpos]
              rw [show env.size - k * ps - ps = 0 from by omega, chunkCount_zero]
            have hoff : k * ps + (env.size - k * ps) = env.size := by omega
            rw [if_pos hrem, hoff,
              uploadLoop_stop env ps fuel env.size (k + 1 + 1) _ le_rfl, h1]
            simp [hrem, List.range_succ]
          · -- full part, continue at offset (k+1) * ps
            have hnlt : ¬(env.size - k * ps < ps) := by omega
            have hmul : k * ps + ps = (k + 1) * ps := by ring
            have hrw2 : env.size - (k + 1) * ps = env.size - k * ps - ps := by
              rw [← hmul]; omega
            have hbound : chunkCount (env.size - (k + 1) * ps) ps ≤ fuel := by
              rw [hrw2]
              rw [chunkCount_succ hps hpos] at h
              omega
            rw [if_neg hnlt, hmul, ih (k + 1) _ hbound]
            rw [chunkCount_succ hps hpos]
            simp only [List.range_succ_eq_map, List.map_cons, List.map_map]
            have hfun1 : ((fun j => UEvent.uploadPart (k + 1 + j) (readData env ((k + j) * ps)
                (if env.size - (k + j) * ps < ps then env.size - (k + j) * ps else ps)))
                  ∘ Nat.succ)
                = fun j => UEvent.uploadPart (k + 1 + 1 + j) (readData env ((k + 1 + j) * ps)
                  (if env.size - (k + 1 + j) * ps < ps then env.size - (k + 1 + j) * ps
                    else ps)) := by
              funext j
              simp only [Function.comp_apply, Nat.succ_eq_add_one]
              rw [show k + (j + 1) = k + 1 + j from by omega,
                show k + 1 + (j + 1) = k + 1 + 1 + j from by omega]
            have hfun2 : ((fun j => ((k + 1 + j : Nat), tagF (k + 1 + j))) ∘ Nat.succ)
                = fun j => (k + 1 + 1 + j, tagF (k + 1 + 1 + j)) := by
              funext j
              simp only [Function.comp_apply, Nat.succ_eq_add_one]
              rw [show k + 1 + (j + 1) = k + 1 + 1 + j from by omega]
            rw [hfun1, hfun2, hrw2]
            simp [hnlt]
    · rw [uploadLoop_stop env ps _ _ _ _ (by omega)]
      have h0 : chunkCount (env.size - k * ps) ps = 0 := by
        rw [show env.size - k * ps = 0 from by omega, chunkCount_zero]
      rw [h0]
      simp

/-- Two adjacent reads concatenate to one longer read. -/
theorem readData_append (env : UploadEnv) (o a b : Nat) :
    readData env o a ++ readData env (o + a) b = readData env o (a + b) := by
  unfold readData
  rw [List.range_add, List.map_append, List.map_map]
  congr 1
  apply List.map_congr_left
  intro j _
  simp only [Function.comp_apply]
  congr 1
  omega

/-- The parts of the loop, concatenated in order, are exactly the remaining
bytes of the source: the part reads cover the source contiguously. -/
theorem uploadParts_cover (env : UploadEnv) (ps : Nat) (hps : 0 < ps) :
    ∀ N k, N = chunkCount (env.size - k * ps) ps →
      ((List.range N).map (fun j => readData env ((k + j) * ps)
          (if env.size - (k + j) * ps < ps then env.size - (k + j) * ps else ps))).flatten
        = readData env (k * ps) (env.size - k * ps) := by
  intro N
  induction N with
  | zero =>
    intro k hN
    have h0 : env.size - k * ps = 0 := (chunkCount_eq_zero_iff hps).mp hN.symm
    rw [h0]
    rfl
  | succ m ih =>
    intro k hN
    have hpos : 0 < env.size - k * ps := by
      by_contra hcon
      rw [show env.size - k * ps = 0 from by omega, chunkCount_zero] at hN
      omega
    rcases Nat.lt_or_ge (env.size - k * ps) ps with hrem | hrem
    · have h1 : chunkCount (env.size - k * ps) ps = 1 := by
        rw [chunkCount_succ hps hpos]
        rw [show env.size - k * ps - ps = 0 from by omega, chunkCount_zero]
      have hm : m = 0 := by omega
      subst hm
      simp [hrem, List.range_succ]
    · have hnlt : ¬(env.size - k * ps < ps) := by omega
      have hmul : k * ps + ps = (k + 1) * ps := by ring
      have hrw2 : env.size - k * ps - ps = env.size - (k + 1) * ps := by
        rw [← hmul]; omega
      have hm : m = chunkCount (env.size - (k + 1) * ps) ps := by
        rw [chunkCount_succ hps hpos, hrw2] at hN
        omega
      rw [List.range_succ_eq_map, List.map_cons, List.flatten_cons, List.map_map]
      have hfun : ((fun j => readData env ((k + j) * ps)
          (if env.size - (k + j) * ps < ps then env.size - (k + j) * ps else ps))
            ∘ Nat.succ)
          = fun j => readData env ((k + 1 + j) * ps)
            (if env.size - (k + 1 + j) * ps < ps then env.size - (k + 1 + j) * ps
              else ps) := by
        funext j
        simp only [Function.comp_apply, Nat.succ_eq_add_one]
        rw [show k + (j + 1) = k + 1 + j from by omega]
      rw [hfun, ih (k + 1) hm]
      have hhd : (if env.size - (k + 0) * ps < ps then env.size - (k + 0) * ps else ps)
          = ps := by
        simp only [Nat.add_zero]
        rw [if_neg hnlt]
      simp only [Nat.add_zero] at hhd ⊢
      rw [hhd, show (k + 1) * ps = k * ps + ps from hmul.symm, readData_append]
      congr 1
      omega

/-- C2: in a fully successful multipart upload run, the storage calls are
exactly: one `CreateMultipartUpload`, then `UploadPart` with strictly
increasing part numbers `1..N` (`N = ceil(size/partSize)`) whose reads are the
consecutive pieces of the source file, then one `CompleteMultipartUpload`
receiving exactly those `N` `{partNumber, serverTag}` pairs in that order;
moreover the parts' bytes concatenate to the whole source. -/
theorem c2_upload_order (env : UploadEnv) (ps : Nat) (hps : 0 < ps) (tagF : Nat → Nat)
    (hcreate : env.createOk = true)
    (hread : ∀ o, env.readOk o = true)
    (hpart : ∀ j, env.partTag j = some (tagF j)) :
    (uploadMultipart env ps).1
      = UEvent.create :: (((List.range (chunkCount env.size ps)).map
          (fun j => UEvent.uploadPart (j + 1) (readData env (j * ps)
            (if env.size - j * ps < ps then env.size - j * ps else ps))))
        ++ [UEvent.complete ((List.range (chunkCount env.size ps)).map
            (fun j => (j + 1, tagF (j + 1))))])
    ∧ ((List.range (chunkCount env.size ps)).map
        (fun j => readData env (j * ps)
          (if env.size - j * ps < ps then env.size - j * ps else ps))).flatten
      = readData env 0 env.size := by
  have hps' : (if ps = 0 then 10 * 1024 * 1024 else ps) = ps := by
    rw [if_neg (by omega)]
  have hloop := uploadLoop_success env ps hps tagF hread hpart env.size 0 []
    (by simpa using chunkCount_le_total hps)
  simp only [Nat.zero_mul, Nat.sub_zero, Nat.zero_add, List.nil_append] at hloop
  have hc1 : (fun j => UEvent.uploadPart (1 + j) (readData env (j * ps)
      (if env.size - j * ps < ps then env.size - j * ps else ps)))
      = fun j => UEvent.uploadPart (j + 1) (readData env (j * ps)
        (if env.size - j * ps < ps then env.size - j * ps else ps)) := by
    funext j
    rw [Nat.add_comm 1 j]
  have hc2 : (fun j => ((1 + j : Nat), tagF (1 + j))) = fun j => (j + 1, tagF (j + 1)) := by
    funext j
    rw [Nat.add_comm 1 j]
  rw [hc1, hc2] at hloop
  have hcover := uploadParts_cover env ps hps (chunkCount env.size ps) 0 (by simp)
  simp only [Nat.zero_mul, Nat.sub_zero, Nat.zero_add] at hcover
  have hmain : uploadMultipart env ps
      = (UEvent.create :: (((List.range (chunkCount env.size ps)).map
            (fun j => UEvent.uploadPart (j + 1) (readData env (j * ps)
              (if env.size - j * ps < ps then env.size - j * ps else ps))))
          ++ [UEvent.complete ((List.range (chunkCount env.size ps)).map
              (fun j => (j + 1, tagF (j + 1))))]),
        if env.completeOk then none else some UErr.completeFail) := by
    simp only [uploadMultipart]
    rw [hps', hcreate, if_neg (by decide : ¬(true = false)), hloop]
  constructor
  · rw [hmain]
  · exact hcover

/-- Closed form of the part loop when the first failure is at iteration `k0`
(0-based): the parts before `k0` upload normally, then either the read at
offset `k0 * ps` fails (no `UploadPart` call) or the `UploadPart` call for
part `k0 + 1` fails; either way exactly one `AbortMultipartUpload` is issued,
and the loop returns the read/part error. -/
theorem uploadLoop_firstFail (env : UploadEnv) (ps : Nat) (hps : 0 < ps) (k0 : Nat)
    (hk0 : k0 * ps < env.size) (tagF : Nat → Nat)
    (hpreR : ∀ j, j < k0 → env.readOk (j * ps) = true)
    (hpreT : ∀ j, j < k0 → env.partTag (j + 1) = some (tagF (j + 1)))
    (hfail : env.readOk (k0 * ps) = false ∨ env.partTag (k0 + 1) = none) :
    ∀ fuel k acc, k ≤ k0 → chunkCount (env.size - k * ps) ps ≤ fuel →
      uploadLoop env ps fuel (k * ps) (k + 1) acc
        = ((List.range (k0 - k)).map
              (fun j => UEvent.uploadPart (k + 1 + j) (readData env ((k + j) * ps) ps))
            ++ (if env.readOk (k0 * ps) = false then [UEvent.abort]
              else [UEvent.uploadPart (k0 + 1) (readData env (k0 * ps)
                (if env.size - k0 * ps < ps then env.size - k0 * ps else ps)),
                UEvent.abort]),
          acc ++ (List.range (k0 - k)).map (fun j => (k + 1 + j, tagF (k + 1 + j))),
          some (if env.readOk (k0 * ps) = false then UErr.readFail (k0 * ps)
            else UErr.partFail (k0 + 1))) := by
  intro fuel
  induction fuel with
  | zero =>
    intro k acc hk hfuel
    exfalso
    have hlt : k * ps < env.size := by
      have := Nat.mul_le_mul_right ps hk
      omega
    have h0 : chunkCount (env.size - k * ps) ps = 0 := by omega
    have := (chunkCount_eq_zero_iff hps).mp h0
    omega
  | succ fuel ih =>
    intro k acc hk hfuel
    have hlt : k * ps < env.size := by
      have := Nat.mul_le_mul_right ps hk
      omega
    have hpos : 0 < env.size - k * ps := by omega
    simp only [uploadLoop]
    rw [if_pos hlt]
    rcases eq_or_ne k k0 with rfl | hne
    · rw [Nat.sub_self]
      cases hro : env.readOk (k * ps) with
      | false =>
        rw [if_pos rfl]
        simp [hro]
      | true =>
        have hpf : env.partTag (k + 1) = none := by
          rcases hfail with h | h
          · rw [hro] at h; cases h
          · exact h
        rw [if_neg (by decide)]
        split
        · simp [hro]
        · rename_i tg hpt
          rw [hpf] at hpt
          cases hpt
    · have hklt : k < k0 := by omega
      have hro := hpreR k hklt
      have hpt := hpreT k hklt
      rw [hro, if_neg (by decide)]
      split
      · rename_i hpt'
        rw [hpt] at hpt'
        cases hpt'
      · rename_i tg' hpt'
        have htg : tg' = tagF (k + 1) := by
          rw [hpt] at hpt'
          injection hpt' with h5
          exact h5.symm
        subst htg
        have hmul : k * ps + ps = (k + 1) * ps := by ring
        have hge : ps < env.size - k * ps := by
          have h2 : (k + 1) * ps ≤ k0 * ps := Nat.mul_le_mul_right ps (by omega)
          omega
        have hnlt : ¬(env.size - k * ps < ps) := by omega
        have hbound : chunkCount (env.size - (k + 1) * ps) ps ≤ fuel := by
          have h4 : env.size - (k + 1) * ps = env.size - k * ps - ps := by
            rw [← hmul]; omega
          rw [h4]
          rw [chunkCount_succ hps hpos] at hfuel
          omega
        rw [if_neg hnlt, hmul, ih (k + 1) (acc ++ [(k + 1, tagF (k + 1))]) (by omega) hbound]
        rw [show k0 - k = (k0 - (k + 1)) + 1 from by omega]
        simp only [List.range_succ_eq_map, List.map_cons, List.map_map]
        have hfun1 : ((fun j => UEvent.uploadPart (k + 1 + j)
              (readData env ((k + j) * ps) ps)) ∘ Nat.succ)
            = fun j => UEvent.uploadPart (k + 1 + 1 + j)
              (readData env ((k + 1 + j) * ps) ps) := by
          funext j
          simp only [Function.comp_apply, Nat.succ_eq_add_one]
          rw [show k + (j + 1) = k + 1 + j from by omega,
            show k + 1 + (j + 1) = k + 1 + 1 + j from by omega]
        have hfun2 : ((fun j => ((k + 1 + j : Nat), tagF (k + 1 + j))) ∘ Nat.succ)
            = fun j => (k + 1 + 1 + j, tagF (k + 1 + 1 + j)) := by
          funext j
          simp only [Function.comp_apply, Nat.succ_eq_add_one]
          rw [show k + 1 + (j + 1) = k + 1 + 1 + j from by omega]
        rw [hfun1, hfun2]
        simp

/-- No `abort` among the prefix part-upload events. -/
theorem count_abort_prefix (f : Nat → List Nat) (g : Nat → Nat) (n : Nat) :
    ((List.range n).map (fun j => UEvent.uploadPart (g j) (f j))).count UEvent.abort
      = 0 := by
  rw [List.count_eq_zero]
  intro h
  obtain ⟨j, _, hEq⟩ := List.mem_map.mp h
  cases hEq

/-- `uploadLoop` never reads the `abortRes` field: the result of the abort
call is discarded by the code. -/
theorem readData_abortRes (env : UploadEnv) (x : Option UErr) (o l : Nat) :
    readData { env with abortRes := x } o l = readData env o l := rfl

theorem uploadLoop_abortRes (env : UploadEnv) (x : Option UErr) (ps : Nat) :
    ∀ fuel offset pn acc,
      uploadLoop { env with abortRes := x } ps fuel offset pn acc
        = uploadLoop env ps fuel offset pn acc := by
  intro fuel
  induction fuel with
  | zero => intro offset pn acc; rfl
  | succ fuel ih =>
    intro offset pn acc
    simp only [uploadLoop, ih, readData_abortRes]

theorem uploadMultipart_abortRes (env : UploadEnv) (x : Option UErr) (ps : Nat) :
    uploadMultipart { env with abortRes := x } ps = uploadMultipart env ps := by
  simp only [uploadMultipart, uploadLoop_abortRes]

/-- C3: when the first failure of a multipart upload run is at iteration `k0`
(either the read feeding part `k0 + 1` or its `UploadPart` call), exactly one
`AbortMultipartUpload` is issued, `CompleteMultipartUpload` is never called,
the returned error is that read/part error, and the result of the abort call
itself (`abortRes`) has no effect on what the caller sees. -/
theorem c3_abort_on_failure (env : UploadEnv) (ps : Nat) (hps : 0 < ps)
    (hcreate : env.createOk = true) (k0 : Nat) (hk0 : k0 * ps < env.size)
    (tagF : Nat → Nat)
    (hpreR : ∀ j, j < k0 → env.readOk (j * ps) = true)
    (hpreT : ∀ j, j < k0 → env.partTag (j + 1) = some (tagF (j + 1)))
    (hfail : env.readOk (k0 * ps) = false ∨ env.partTag (k0 + 1) = none) :
    ((uploadMultipart env ps).1.count UEvent.abort = 1)
    ∧ (∀ parts, UEvent.complete parts ∉ (uploadMultipart env ps).1)
    ∧ ((uploadMultipart env ps).2
        = some (if env.readOk (k0 * ps) = false then UErr.readFail (k0 * ps)
            else UErr.partFail (k0 + 1)))
    ∧ (∀ x, uploadMultipart { env with abortRes := x } ps = uploadMultipart env ps) := by
  have hps' : (if ps = 0 then 10 * 1024 * 1024 else ps) = ps := by
    rw [if_neg (by omega)]
  have hloop := uploadLoop_firstFail env ps hps k0 hk0 tagF hpreR hpreT hfail env.size 0 []
    (by omega) (by simpa using chunkCount_le_total hps)
  simp only [Nat.zero_mul, Nat.sub_zero, Nat.zero_add, List.nil_append] at hloop
  have hmain : uploadMultipart env ps
      = (UEvent.create :: ((List.range k0).map
            (fun j => UEvent.uploadPart (1 + j) (readData env (j * ps) ps))
          ++ (if env.readOk (k0 * ps) = false then [UEvent.abort]
            else [UEvent.uploadPart (k0 + 1) (readData env (k0 * ps)
              (if env.size - k0 * ps < ps then env.size - k0 * ps else ps)),
              UEvent.abort])),
        some (if env.readOk (k0 * ps) = false then UErr.readFail (k0 * ps)
          else UErr.partFail (k0 + 1))) := by
    simp only [uploadMultipart]
    rw [hps', hcreate, if_neg (by decide : ¬(true = false)), hloop]
  have hb1 : ∀ (pn : Nat) (buf : List Nat),
      (UEvent.uploadPart pn buf == UEvent.abort) = false := fun _ _ => rfl
  have hb2 : (UEvent.create == UEvent.abort) = false := rfl
  have hb3 : (UEvent.abort == UEvent.abort) = true := rfl
  refine ⟨?_, ?_, ?_, fun x => uploadMultipart_abortRes env x ps⟩
  · rw [hmain]
    cases hro : env.readOk (k0 * ps) with
    | false =>
      simp [hro, List.count_cons, List.count_append, count_abort_prefix, hb2, hb3]
    | true =>
      simp [hro, List.count_cons, List.count_append, count_abort_prefix, hb1, hb2, hb3]
  · rw [hmain]
    intro parts hmem
    rcases List.mem_cons.mp hmem with hEq | hmem'
    · cases hEq
    · rcases List.mem_append.mp hmem' with hpre | hbr
      · obtain ⟨j, _, hEq⟩ := List.mem_map.mp hpre
        cases hEq
      · split at hbr
        · simp at hbr
        · rcases List.mem_cons.mp hbr with h1 | h1
          · cases h1
          · simp at h1
  · rw [hmain]

/-- Demonstration oracle for a fully successful 3-byte, 2-byte-parts upload. -/
def uenvDemo : UploadEnv where
  size := 3
  byteAt := fun i => i + 20
  readOk := fun _ => true
  partTag := fun n => some (100 + n)
  createOk := true
  completeOk := true
  abortRes := none

/-- Witness for C2 at `size = 3`, `partSize = 2` (two parts). -/
theorem c2_upload_order_witness :
    (0 < 2 ∧ uenvDemo.createOk = true ∧ (∀ o, uenvDemo.readOk o = true)
      ∧ ∀ j, uenvDemo.partTag j = some (100 + j))
    ∧ ((uploadMultipart uenvDemo 2).1
        = UEvent.create :: (((List.range (chunkCount uenvDemo.size 2)).map
            (fun j => UEvent.uploadPart (j + 1) (readData uenvDemo (j * 2)
              (if uenvDemo.size - j * 2 < 2 then uenvDemo.size - j * 2 else 2))))
          ++ [UEvent.complete ((List.range (chunkCount uenvDemo.size 2)).map
              (fun j => (j + 1, 100 + (j + 1))))])
    ∧ ((List.range (chunkCount uenvDemo.size 2)).map
        (fun j => readData uenvDemo (j * 2)
          (if uenvDemo.size - j * 2 < 2 then uenvDemo.size - j * 2 else 2))).flatten
      = readData uenvDemo 0 uenvDemo.size) :=
  ⟨⟨by decide, rfl, fun _ => rfl, fun _ => rfl⟩,
    c2_upload_order uenvDemo 2 (by decide) (fun n => 100 + n) rfl (fun _ => rfl)
      (fun _ => rfl)⟩

/-- Demonstration oracle where `UploadPart` for part 2 fails. -/
def uenvFail : UploadEnv where
  size := 3
  byteAt := fun i => i + 20
  readOk := fun _ => true
  partTag := fun n => if n = 2 then none else some (100 + n)
  createOk := true
  completeOk := true
  abortRes := none

/-- Witness for C3: part 2's `UploadPart` fails (`k0 = 1`). -/
theorem c3_abort_on_failure_witness :
    (0 < 2 ∧ uenvFail.createOk = true ∧ 1 * 2 < uenvFail.size
      ∧ (∀ j, j < 1 → uenvFail.readOk (j * 2) = true)
      ∧ (∀ j, j < 1 → uenvFail.partTag (j + 1) = some (100 + (j + 1)))
      ∧ (uenvFail.readOk (1 * 2) = false ∨ uenvFail.partTag (1 + 1) = none))
    ∧ (((uploadMultipart uenvFail 2).1.count UEvent.abort = 1)
      ∧ (∀ parts, UEvent.complete parts ∉ (uploadMultipart uenvFail 2).1)
      ∧ ((uploadMultipart uenvFail 2).2
          = some (if uenvFail.readOk (1 * 2) = false then UErr.readFail (1 * 2)
              else UErr.partFail (1 + 1)))
      ∧ (∀ x, uploadMultipart { uenvFail with abortRes := x } 2
          = uploadMultipart uenvFail 2)) :=
  ⟨⟨by decide, rfl, by decide, by decide, by decide, Or.inr rfl⟩,
    c3_abort_on_failure uenvFail 2 (by decide) rfl 1 (by decide) (fun n => 100 + n)
      (by decide) (by decide) (Or.inr rfl)⟩

/-!
## Progress percent (C6)

`render` (download/run.go lines 105-110) computes

```
totalMB := float64(p.totalBytes) / 1024 / 1024
doneMB  := float64(bytes) / 1024 / 1024
pct := doneMB / totalMB * 100
if pct > 100 { pct = 100 }
```

The two divisions by 1024 are exact scalings, so the exact values are rational
except for the IEEE-754 corner cases of `doneMB / totalMB`, which the model
makes explicit: `0/0 = NaN`, `x/0 = ±Inf` for `x ≠ 0`.  `NaN > 100` and
`-Inf > 100` are false, `+Inf > 100` is true, exactly as in Go's `>` on
float64. -/

/-- Exact value of a float64 as produced by the percent pipeline. -/
inductive FloatVal where
  | finite (q : ℚ)
  | posInf
  | negInf
  | nan
deriving DecidableEq

/-- `doneMB / totalMB` with IEEE-754 division-by-zero semantics. -/
def fdiv (a b : ℚ) : FloatVal :=
  if b = 0 then (if a = 0 then .nan else if a > 0 then .posInf else .negInf)
  else .finite (a / b)

/-- `· * 100` (infinities and NaN absorb). -/
def fmul100 : FloatVal → FloatVal
  | .finite q => .finite (q * 100)
  | x => x

/-- `if pct > 100 { pct = 100 }`: `NaN > 100` and `-Inf > 100` are false. -/
def fclamp : FloatVal → FloatVal
  | .finite q => if q > 100 then .finite 100 else .finite q
  | .posInf => .finite 100
  | .negInf => .negInf
  | .nan => .nan

/-- The percent value shown by `render`, from the transferred and total byte
counts (in MB; the exact 1024² scaling cancels in the ratio). -/
def renderPct (doneMB totalMB : ℚ) : FloatVal :=
  fclamp (fmul100 (fdiv doneMB totalMB))

/-- C6 counterexample: at `totalBytes = 0` (a zero-length object, where the
transferred count is also 0) the percent is `0/0 = NaN`; the one-sided clamp
does not normalize it, so the computed percent does not lie within [0, 100]. -/
theorem c6_counterexample :
    renderPct 0 0 = FloatVal.nan
    ∧ ¬∃ q : ℚ, renderPct 0 0 = FloatVal.finite q ∧ 0 ≤ q ∧ q ≤ 100 := by
  have h : renderPct 0 0 = FloatVal.nan := by
    simp [renderPct, fdiv, fmul100, fclamp]
  refine ⟨h, ?_⟩
  rintro ⟨q, hq, -, -⟩
  rw [h] at hq
  cases hq

/-- C6 amended: whenever `totalBytes > 0` (and transferred bytes are
non-negative, as they always are), the computed percent is a finite value in
[0, 100]; at `totalBytes = 0` with `bytes = 0` — the only reachable
zero-total case — the percent is NaN, not a value in [0, 100]. -/
theorem c6_percent_clamped (doneMB totalMB : ℚ) (hdone : 0 ≤ doneMB)
    (htot : 0 < totalMB) :
    ∃ q : ℚ, renderPct doneMB totalMB = FloatVal.finite q ∧ 0 ≤ q ∧ q ≤ 100 := by
  have hne : totalMB ≠ 0 := ne_of_gt htot
  have hnn : 0 ≤ doneMB / totalMB * 100 :=
    mul_nonneg (div_nonneg hdone (le_of_lt htot)) (by norm_num)
  simp only [renderPct, fdiv, if_neg hne, fmul100, fclamp]
  by_cases hgt : doneMB / totalMB * 100 > 100
  · refine ⟨100, ?_, by norm_num, le_refl 100⟩
    rw [if_pos hgt]
  · refine ⟨doneMB / totalMB * 100, ?_, hnn, by linarith⟩
    rw [if_neg hgt]

/-- Witness for the amended C6 at `doneMB = 1`, `totalMB = 2` (50%). -/
theorem c6_percent_clamped_witness :
    ((0 : ℚ) ≤ 1 ∧ (0 : ℚ) < 2)
    ∧ ∃ q : ℚ, renderPct 1 2 = FloatVal.finite q ∧ 0 ≤ q ∧ q ≤ 100 :=
  ⟨⟨by norm_num, by norm_num⟩, c6_percent_clamped 1 2 (by norm_num) (by norm_num)⟩

/-!
## Existence probes (C9)

`ObjectExists` (s3ops, over `HeadObject`) and `BucketExists`
(s3ops/upload.go lines 501-509, over `HeadBucket`):

```
_, err := client.HeadObject(...)   // resp. HeadBucket
if err != nil { return false, nil }
return true, nil
```

The head call's outcome is the oracle (`Except.error e` for any failure —
404, network, permission — carrying the error message). -/

/-- `ObjectExists` (src/unnamed/part_002 lines 58-67). -/
def objectExists (headResp : Except String Unit) : Bool × Option String :=
  match headResp with
  | .error _ => (false, none)
  | .ok _ => (true, none)

/-- `BucketExists` (s3ops/upload.go lines 501-509). -/
def bucketExists (headResp : Except String Unit) : Bool × Option String :=
  match headResp with
  | .error _ => (false, none)
  | .ok _ => (true, none)

/-- C9: `ObjectExists` and `BucketExists` always return a nil error; every
failure of the underlying head call — whatever its message — is reported as
`(false, nil)`, indistinguishable from the object or bucket not existing. -/
theorem c9_exists_swallows_errors :
    (∀ r : Except String Unit, (objectExists r).2 = none)
    ∧ (∀ e : String, objectExists (Except.error e) = (false, none))
    ∧ (∀ e e' : String, objectExists (Except.error e) = objectExists (Except.error e'))
    ∧ (∀ r : Except String Unit, (bucketExists r).2 = none)
    ∧ (∀ e : String, bucketExists (Except.error e) = (false, none))
    ∧ (∀ e e' : String, bucketExists (Except.error e) = bucketExists (Except.error e')) := by
  refine ⟨?_, fun e => rfl, fun e e' => rfl, ?_, fun e => rfl, fun e e' => rfl⟩ <;>
    intro r <;> cases r <;> rfl

/-!
## Client factory cache (C10)

`Factory.GetClientWithOptions` (s3client/client.go lines 77-107) caches under
`cacheKey(opts) + "|custom"`, a key that does not mention the `ClientOption`
list; a cache hit returns the stored client and never applies the new
options.  `config.Load` may fail (`loadOk` oracle); a built client is modelled
by the options it was loaded with and the `ClientOption` values applied to it
(`Opt` stays abstract, as `ClientOption` is an opaque function type). -/

structure COptions where
  profile : String
  region : String
  endpoint : String
deriving DecidableEq

/-- `Factory.cacheKey` (client.go lines 25-27). -/
def cacheKey (o : COptions) : String := o.profile ++ "|" ++ o.region ++ "|" ++ o.endpoint

structure ClientModel (Opt : Type) where
  opts : COptions
  applied : List Opt
deriving DecidableEq

/-- The factory's `clients` map (newest entry first, as lookup order). -/
structure FactoryModel (Opt : Type) where
  clients : List (String × ClientModel Opt)

/-- `Factory.GetClientWithOptions`: look up `cacheKey(opts) + "|custom"`;
on a hit return the cached client unchanged, otherwise load the config
(`loadOk`), build a client from `opts` and the given `ClientOption`s and
cache it under that key. -/
def getClientWithOptions {Opt : Type} (loadOk : COptions → Bool) (f : FactoryModel Opt)
    (o : COptions) (clientOpts : List Opt) :
    Option (ClientModel Opt) × FactoryModel Opt :=
  match f.clients.lookup (cacheKey o ++ "|custom") with
  | some c => (some c, f)
  | none =>
    if loadOk o then
      (some ⟨o, clientOpts⟩,
        ⟨(cacheKey o ++ "|custom", (⟨o, clientOpts⟩ : ClientModel Opt)) :: f.clients⟩)
    else (none, f)

/-- C10: the cache key is `cacheKey(opts) ++ "|custom"` and ignores the
`ClientOption` list.  On a fresh key, the first call builds and caches the
client from its own options; a second call with the same `config.Options` but
any other `ClientOption` list returns the client built from the first call's
options, leaving the cache unchanged. -/
theorem c10_factory_cache {Opt : Type} (loadOk : COptions → Bool) (f : FactoryModel Opt)
    (o : COptions) (copts1 copts2 : List Opt)
    (hload : loadOk o = true)
    (hfresh : f.clients.lookup (cacheKey o ++ "|custom") = none) :
    (getClientWithOptions loadOk f o copts1).1 = some ⟨o, copts1⟩
    ∧ (getClientWithOptions loadOk f o copts1).2.clients.lookup
        (cacheKey o ++ "|custom") = some ⟨o, copts1⟩
    ∧ (getClientWithOptions loadOk
        (getClientWithOptions loadOk f o copts1).2 o copts2).1 = some ⟨o, copts1⟩
    ∧ (getClientWithOptions loadOk
        (getClientWithOptions loadOk f o copts1).2 o copts2).2
      = (getClientWithOptions loadOk f o copts1).2 := by
  have h1 : getClientWithOptions loadOk f o copts1
      = (some ⟨o, copts1⟩,
          ⟨(cacheKey o ++ "|custom", (⟨o, copts1⟩ : ClientModel Opt)) :: f.clients⟩) := by
    simp only [getClientWithOptions, hfresh, hload, if_true]
  have h2 : ((cacheKey o ++ "|custom", (⟨o, copts1⟩ : ClientModel Opt))
      :: f.clients).lookup (cacheKey o ++ "|custom") = some ⟨o, copts1⟩ := by
    simp [List.lookup]
  have h3 : getClientWithOptions loadOk
      (⟨(cacheKey o ++ "|custom", (⟨o, copts1⟩ : ClientModel Opt)) :: f.clients⟩
        : FactoryModel Opt) o copts2
      = (some ⟨o, copts1⟩,
          ⟨(cacheKey o ++ "|custom", (⟨o, copts1⟩ : ClientModel Opt)) :: f.clients⟩) := by
    simp only [getClientWithOptions, h2]
  refine ⟨?_, ?_, ?_, ?_⟩ <;> simp only [h1, h3]
  exact h2

/-- Witness for C10 with a fresh factory and two different option lists. -/
theorem c10_factory_cache_witness :
    ((fun _ : COptions => true) ⟨"p", "r", "e"⟩ = true
      ∧ (FactoryModel.clients (⟨[]⟩ : FactoryModel Nat)).lookup
          (cacheKey ⟨"p", "r", "e"⟩ ++ "|custom") = none)
    ∧ ((getClientWithOptions (fun _ => true) ⟨[]⟩ ⟨"p", "r", "e"⟩ [1]).1
        = some ⟨⟨"p", "r", "e"⟩, [1]⟩
    ∧ (getClientWithOptions (fun _ => true) ⟨[]⟩ ⟨"p", "r", "e"⟩ [1]).2.clients.lookup
        (cacheKey ⟨"p", "r", "e"⟩ ++ "|custom") = some ⟨⟨"p", "r", "e"⟩, [1]⟩
    ∧ (getClientWithOptions (fun _ => true)
        (getClientWithOptions (fun _ => true) ⟨[]⟩ ⟨"p", "r", "e"⟩ [1]).2
        ⟨"p", "r", "e"⟩ [2]).1 = some ⟨⟨"p", "r", "e"⟩, [1]⟩
    ∧ (getClientWithOptions (fun _ => true)
        (getClientWithOptions (fun _ => true) ⟨[]⟩ ⟨"p", "r", "e"⟩ [1]).2
        ⟨"p", "r", "e"⟩ [2]).2
      = (getClientWithOptions (fun _ => true) ⟨[]⟩ ⟨"p", "r", "e"⟩ [1]).2) :=
  ⟨⟨rfl, rfl⟩,
    c10_factory_cache (fun _ => true) ⟨[]⟩ ⟨"p", "r", "e"⟩ [1] [2] rfl rfl⟩

end S3C
